import Mathlib

/-!
Verification of the Sh1ffy VS Code extension (font manager, theme manager).

Strings from the TypeScript source are embedded as lists of characters
(`Str`).  Each definition in this file mirrors one function of the source
(`stripJsonComments`, `injectStyle`, `removeStyle`, `getStyleMarkup`,
`toSafeId`, `normalizeThemeObject`, `readImportedThemesFromDisk`,
`syncPackageJsonThemes`, `writePackageJson`, the action handlers), with
JavaScript runtime behaviour (string indexing, regex matching for the one
concrete pattern used, JSON object field access, truthiness, `path.join`
normalisation) modelled explicitly.
-/

set_option maxRecDepth 20000

/-- Strings are modelled as lists of characters. -/
abbrev Str := List Char

/-! ## Basic string-search utilities (JS `String.prototype.indexOf`, prefix tests) -/

/-- `begins pat l` is true when `pat` is a leading segment of `l`. -/
def begins : Str → Str → Bool
  | [], _ => true
  | _ :: _, [] => false
  | p :: ps, c :: cs => p = c && begins ps cs

/-- Index of the first occurrence of `pat` in `l`, as JS `indexOf` computes it. -/
def subIdx (pat : Str) : Str → Option Nat
  | [] => if begins pat [] then some 0 else none
  | l@(_ :: t) => if begins pat l then some 0 else (subIdx pat t).map (· + 1)

/-- `containsSub pat l`: `pat` occurs somewhere in `l`. -/
def containsSub (pat l : Str) : Bool :=
  (subIdx pat l).isSome

theorem begins_iff_append {pat l : Str} : begins pat l = true ↔ ∃ t, l = pat ++ t := by
  induction pat generalizing l with
  | nil => simp [begins]
  | cons p ps ih =>
    cases l with
    | nil => simp [begins]
    | cons c cs =>
      simp only [begins, Bool.and_eq_true, decide_eq_true_eq, ih, List.cons_append]
      constructor
      · rintro ⟨rfl, t, rfl⟩; exact ⟨t, rfl⟩
      · rintro ⟨t, h⟩
        cases h
        exact ⟨rfl, t, rfl⟩

theorem begins_append_self (pat t : Str) : begins pat (pat ++ t) = true :=
  begins_iff_append.mpr ⟨t, rfl⟩

theorem subIdx_some_begins {pat l : Str} {i : Nat} (h : subIdx pat l = some i) :
    begins pat (l.drop i) = true := by
  induction l generalizing i with
  | nil =>
    simp only [subIdx] at h
    split at h
    · cases h; simpa using ‹begins pat [] = true›
    · cases h
  | cons c cs ih =>
    simp only [subIdx] at h
    split at h
    · cases h; simpa using ‹_›
    · cases hh : subIdx pat cs with
      | none => simp [hh] at h
      | some j =>
        simp only [hh, Option.map_some'] at h
        cases h
        simpa using ih hh

theorem subIdx_some_min {pat l : Str} {i : Nat} (h : subIdx pat l = some i) :
    ∀ j, j < i → begins pat (l.drop j) = false := by
  induction l generalizing i with
  | nil =>
    intro j hj
    simp only [subIdx] at h
    split at h
    · cases h; omega
    · cases h
  | cons c cs ih =>
    intro j hj
    simp only [subIdx] at h
    split at h
    · cases h; omega
    · cases hh : subIdx pat cs with
      | none => simp [hh] at h
      | some k =>
        simp only [hh, Option.map_some'] at h
        cases h
        cases j with
        | zero =>
          simpa using Bool.not_eq_true _ |>.mp ‹¬ begins pat (c :: cs) = true›
        | succ j' =>
          simpa using ih hh j' (by omega)

theorem subIdx_none {pat l : Str} (h : subIdx pat l = none) :
    ∀ j, begins pat (l.drop j) = false := by
  induction l with
  | nil =>
    intro j
    simp only [subIdx] at h
    split at h
    · cases h
    · simp only [List.drop_nil]
      exact Bool.not_eq_true _ |>.mp ‹¬ begins pat [] = true›
  | cons c cs ih =>
    intro j
    simp only [subIdx] at h
    split at h
    · cases h
    · cases hh : subIdx pat cs with
      | some k => simp [hh] at h
      | none =>
        cases j with
        | zero => simpa using Bool.not_eq_true _ |>.mp ‹¬ begins pat (c :: cs) = true›
        | succ j' => simpa using ih hh j'

theorem subIdx_isSome_of_occ {pat l : Str} {k : Nat} (h : begins pat (l.drop k) = true) :
    ∃ i, subIdx pat l = some i ∧ i ≤ k := by
  cases hs : subIdx pat l with
  | none => exact absurd h (by simp [subIdx_none hs k])
  | some i =>
    refine ⟨i, rfl, ?_⟩
    by_contra hik
    have := subIdx_some_min hs k (by omega)
    rw [h] at this
    cases this

theorem subIdx_eq_of_first {pat l : Str} {i : Nat}
    (h1 : begins pat (l.drop i) = true)
    (h2 : ∀ j, j < i → begins pat (l.drop j) = false) :
    subIdx pat l = some i := by
  obtain ⟨k, hk, hki⟩ := subIdx_isSome_of_occ h1
  have hb := subIdx_some_begins hk
  rcases Nat.lt_or_ge k i with hlt | hge
  · rw [h2 k hlt] at hb; cases hb
  · have : k = i := by omega
    rwa [this] at hk

theorem containsSub_iff {pat l : Str} :
    containsSub pat l = true ↔ ∃ s t, l = s ++ pat ++ t := by
  constructor
  · intro h
    rw [containsSub, Option.isSome_iff_exists] at h
    obtain ⟨i, hi⟩ := h
    have hb := subIdx_some_begins hi
    obtain ⟨t, ht⟩ := begins_iff_append.mp hb
    exact ⟨l.take i, t, by rw [List.append_assoc, ← ht, List.take_append_drop]⟩
  · rintro ⟨s, t, rfl⟩
    have : begins pat ((s ++ pat ++ t).drop s.length) = true := by
      rw [List.append_assoc, List.drop_left]
      exact begins_append_self pat t
    obtain ⟨i, hi, _⟩ := subIdx_isSome_of_occ this
    rw [List.append_assoc] at hi
    simp [containsSub, hi]

theorem containsSub_false_iff {pat l : Str} :
    containsSub pat l = false ↔ ∀ s t, l ≠ s ++ pat ++ t := by
  rw [← Bool.not_eq_true, not_iff_comm, containsSub_iff]
  push_neg
  simp

/-! ## `stripJsonComments` (src/src/utils/theme-manager/index.ts, lines 599-661)

The TypeScript loop walks the input with flags `inString`, `stringChar`,
`inLineComment`, `inBlockComment`; when a closing quote candidate is seen it
counts the backslashes immediately before it in the original input.  The
embedding carries the reversed list of already-consumed characters (`prev`)
so that this backward count reads exactly the characters the source reads. -/

def stripGo (prev : Str) (input : Str) (inString : Bool) (stringChar : Option Char)
    (inLineComment : Bool) (inBlockComment : Bool) : Str :=
  match input with
  | [] => []
  | ch :: rest =>
    if inLineComment then
      if ch = '\n' ∨ ch = '\r' then
        ch :: stripGo (ch :: prev) rest inString stringChar false inBlockComment
      else
        stripGo (ch :: prev) rest inString stringChar true inBlockComment
    else if inBlockComment then
      if ch = '*' ∧ rest.head? = some '/' then
        stripGo ('/' :: ch :: prev) rest.tail inString stringChar inLineComment false
      else
        stripGo (ch :: prev) rest inString stringChar inLineComment true
    else if ¬inString ∧ ch = '/' ∧ rest.head? = some '/' then
      stripGo ('/' :: ch :: prev) rest.tail inString stringChar true inBlockComment
    else if ¬inString ∧ ch = '/' ∧ rest.head? = some '*' then
      stripGo ('*' :: ch :: prev) rest.tail inString stringChar inLineComment true
    else if ch = '"' ∨ ch = '\'' then
      if ¬inString then
        ch :: stripGo (ch :: prev) rest true (some ch) inLineComment inBlockComment
      else if stringChar = some ch then
        if (prev.takeWhile (fun c => c = '\\')).length % 2 = 0 then
          ch :: stripGo (ch :: prev) rest false none inLineComment inBlockComment
        else
          ch :: stripGo (ch :: prev) rest inString stringChar inLineComment inBlockComment
      else
        ch :: stripGo (ch :: prev) rest inString stringChar inLineComment inBlockComment
    else
      ch :: stripGo (ch :: prev) rest inString stringChar inLineComment inBlockComment
termination_by input.length
decreasing_by
  all_goals simp [List.length_tail]
  all_goals omega

/-- Embedding of `stripJsonComments` from the theme manager. -/
def stripJsonComments (s : String) : String :=
  String.mk (stripGo [] s.data false none false false)

/-! ## Specification-side comment stripper for claim C1

The claim describes `stripJsonComments` as a scanner with four modes: plain
text, inside a string literal, inside a `//` line comment (removed up to but
not including the terminating newline), and inside a `/* ... */` block
comment.  Inside a string literal every character is copied; the literal ends
at an unescaped closing quote, tracked here with the standard escape flag. -/

inductive JMode where
  | text
  | lit (q : Char) (esc : Bool)
  | lineC
  | blockC
deriving DecidableEq

/-- Mode-machine formalisation of the behaviour the claim describes. -/
def stripSpecGo : JMode → Str → Str
  | _, [] => []
  | JMode.lineC, c :: rest =>
    if c = '\n' ∨ c = '\r' then c :: stripSpecGo JMode.text rest
    else stripSpecGo JMode.lineC rest
  | JMode.blockC, c :: rest =>
    if c = '*' ∧ rest.head? = some '/' then stripSpecGo JMode.text rest.tail
    else stripSpecGo JMode.blockC rest
  | JMode.text, c :: rest =>
    if c = '/' ∧ rest.head? = some '/' then stripSpecGo JMode.lineC rest.tail
    else if c = '/' ∧ rest.head? = some '*' then stripSpecGo JMode.blockC rest.tail
    else if c = '"' ∨ c = '\'' then c :: stripSpecGo (JMode.lit c false) rest
    else c :: stripSpecGo JMode.text rest
  | JMode.lit q esc, c :: rest =>
    if esc then c :: stripSpecGo (JMode.lit q false) rest
    else if c = '\\' then c :: stripSpecGo (JMode.lit q true) rest
    else if c = q then c :: stripSpecGo JMode.text rest
    else c :: stripSpecGo (JMode.lit q false) rest
termination_by _ input => input.length
decreasing_by
  all_goals simp [List.length_tail]
  all_goals omega

/-- The spec-level stripper of claim C1. -/
def stripJsonCommentsSpec (s : String) : String :=
  String.mk (stripSpecGo JMode.text s.data)

/-- Parity of the run of backslashes that ends the consumed prefix. -/
def parityOdd (prev : Str) : Bool :=
  (prev.takeWhile (fun c => c = '\\')).length % 2 = 1

theorem parityOdd_cons (c : Char) (prev : Str) :
    parityOdd (c :: prev) = if c = '\\' then !parityOdd prev else false := by
  by_cases h : c = '\\'
  · subst h
    simp only [parityOdd, List.takeWhile_cons, if_pos rfl, decide_eq_true_eq, if_true,
      List.length_cons, decide_True]
    rcases Nat.mod_two_eq_zero_or_one (List.takeWhile (fun c => c = '\\') prev).length with h2 | h2 <;>
      simp [Nat.add_mod, h2]
  · simp [parityOdd, List.takeWhile_cons, h]

/-- Relation between the source-machine state and the claim's mode machine. -/
def SRel (prev : Str) (inString : Bool) (stringChar : Option Char)
    (inLineComment inBlockComment : Bool) : JMode → Prop
  | JMode.text => inString = false ∧ stringChar = none ∧ inLineComment = false ∧ inBlockComment = false
  | JMode.lit q esc => inString = true ∧ stringChar = some q ∧ (q = '"' ∨ q = '\'') ∧
      inLineComment = false ∧ inBlockComment = false ∧ esc = parityOdd prev
  | JMode.lineC => inString = false ∧ stringChar = none ∧ inLineComment = true ∧ inBlockComment = false
  | JMode.blockC => inString = false ∧ stringChar = none ∧ inLineComment = false ∧ inBlockComment = true

theorem stripGo_eq_spec (fuel : Nat) : ∀ (input : Str), input.length ≤ fuel →
    ∀ prev inS sc inL inB mode, SRel prev inS sc inL inB mode →
    stripGo prev input inS sc inL inB = stripSpecGo mode input := by
  induction fuel with
  | zero =>
    intro input hlen prev inS sc inL inB mode hrel
    have hnil : input = [] := List.eq_nil_of_length_eq_zero (Nat.le_zero.mp hlen)
    subst hnil
    cases mode <;> simp [stripGo, stripSpecGo]
  | succ n ih =>
    intro input hlen prev inS sc inL inB mode hrel
    cases input with
    | nil => cases mode <;> simp [stripGo, stripSpecGo]
    | cons ch rest =>
      have hr : rest.length ≤ n := by
        simp only [List.length_cons] at hlen; omega
      have hrt : rest.tail.length ≤ n := by
        have := List.length_tail rest
        simp only [List.length_cons] at hlen
        omega
      cases mode with
      | lineC =>
        obtain ⟨h1, h2, h3, h4⟩ := hrel
        subst h1; subst h2; subst h3; subst h4
        by_cases hch : ch = '\n' ∨ ch = '\r'
        · have trec := ih rest hr (ch :: prev) false none false false JMode.text
            ⟨rfl, rfl, rfl, rfl⟩
          simp [stripGo, stripSpecGo, hch, trec]
        · have trec := ih rest hr (ch :: prev) false none true false JMode.lineC
            ⟨rfl, rfl, rfl, rfl⟩
          simp [stripGo, stripSpecGo, hch, trec]
      | blockC =>
        obtain ⟨h1, h2, h3, h4⟩ := hrel
        subst h1; subst h2; subst h3; subst h4
        by_cases hch : ch = '*' ∧ rest.head? = some '/'
        · obtain ⟨rfl, hch2⟩ := hch
          have trec := ih rest.tail hrt ('/' :: '*' :: prev) false none false false JMode.text
            ⟨rfl, rfl, rfl, rfl⟩
          simp [stripGo, stripSpecGo, hch2, trec]
        · have trec := ih rest hr (ch :: prev) false none false true JMode.blockC
            ⟨rfl, rfl, rfl, rfl⟩
          simp [stripGo, stripSpecGo, hch, trec]
      | text =>
        obtain ⟨h1, h2, h3, h4⟩ := hrel
        subst h1; subst h2; subst h3; subst h4
        by_cases hline : ch = '/' ∧ rest.head? = some '/'
        · obtain ⟨rfl, hline2⟩ := hline
          have trec := ih rest.tail hrt ('/' :: '/' :: prev) false none true false JMode.lineC
            ⟨rfl, rfl, rfl, rfl⟩
          simp [stripGo, stripSpecGo, hline2, trec]
        · by_cases hblock : ch = '/' ∧ rest.head? = some '*'
          · obtain ⟨rfl, hblock2⟩ := hblock
            have trec := ih rest.tail hrt ('*' :: '/' :: prev) false none false true JMode.blockC
              ⟨rfl, rfl, rfl, rfl⟩
            simp [stripGo, stripSpecGo, hline, hblock2, trec]
          · by_cases hq : ch = '"' ∨ ch = '\''
            · have hbs : ¬ (ch = '\\') := by
                rcases hq with rfl | rfl <;> decide
              have hpar : parityOdd (ch :: prev) = false := by
                rw [parityOdd_cons, if_neg hbs]
              have trec := ih rest hr (ch :: prev) true (some ch) false false
                (JMode.lit ch false) ⟨rfl, rfl, hq, rfl, rfl, hpar.symm⟩
              simp [stripGo, stripSpecGo, hline, hblock, hq, trec]
            · have trec := ih rest hr (ch :: prev) false none false false JMode.text
                ⟨rfl, rfl, rfl, rfl⟩
              simp [stripGo, stripSpecGo, hline, hblock, hq, trec]
      | lit q esc =>
        obtain ⟨h1, h2, hqq, h3, h4, h5⟩ := hrel
        subst h1; subst h2; subst h3; subst h4
        by_cases hq : ch = '"' ∨ ch = '\''
        · have hbs : ¬ (ch = '\\') := by
            rcases hq with rfl | rfl <;> decide
          have hpar : parityOdd (ch :: prev) = false := by
            rw [parityOdd_cons, if_neg hbs]
          by_cases hcq : ch = q
          · subst hcq
            cases hesc : esc with
            | true =>
              have hparodd : parityOdd prev = true := by rw [← h5, hesc]
              have hlen1 : (prev.takeWhile (fun c => c = '\\')).length % 2 = 1 :=
                of_decide_eq_true hparodd
              have hne : ¬ ((prev.takeWhile (fun c => c = '\\')).length % 2 = 0) := by
                omega
              have trec := ih rest hr (ch :: prev) true (some ch) false false
                (JMode.lit ch false) ⟨rfl, rfl, hqq, rfl, rfl, hpar.symm⟩
              simp [stripGo, stripSpecGo, hq, hne, trec]
            | false =>
              have hpareven : parityOdd prev = false := by rw [← h5, hesc]
              have hlen0 : ¬ ((prev.takeWhile (fun c => c = '\\')).length % 2 = 1) := by
                intro hcon
                rw [parityOdd, hcon] at hpareven
                simp at hpareven
              have heq0 : (prev.takeWhile (fun c => c = '\\')).length % 2 = 0 := by
                omega
              have trec := ih rest hr (ch :: prev) false none false false JMode.text
                ⟨rfl, rfl, rfl, rfl⟩
              simp [stripGo, stripSpecGo, hq, hbs, heq0, trec]
          · have hqc : ¬ (q = ch) := fun h => hcq h.symm
            have trec := ih rest hr (ch :: prev) true (some q) false false
              (JMode.lit q false) ⟨rfl, rfl, hqq, rfl, rfl, hpar.symm⟩
            cases esc <;>
              simp [stripGo, stripSpecGo, hq, hqc, hcq, hbs, trec]
        · by_cases hbs : ch = '\\'
          · subst hbs
            have hpar : parityOdd ('\\' :: prev) = !parityOdd prev := by
              rw [parityOdd_cons, if_pos rfl]
            cases hesc : esc with
            | false =>
              have h5' : parityOdd prev = false := by rw [← h5, hesc]
              have trec := ih rest hr ('\\' :: prev) true (some q) false false
                (JMode.lit q true) ⟨rfl, rfl, hqq, rfl, rfl, by rw [hpar, h5']; rfl⟩
              simp [stripGo, stripSpecGo, hq, trec]
            | true =>
              have h5' : parityOdd prev = true := by rw [← h5, hesc]
              have trec := ih rest hr ('\\' :: prev) true (some q) false false
                (JMode.lit q false) ⟨rfl, rfl, hqq, rfl, rfl, by rw [hpar, h5']; rfl⟩
              simp [stripGo, stripSpecGo, hq, trec]
          · have hchq : ¬ (ch = q) := fun h => hq (by rw [h]; exact hqq)
            have hpar : parityOdd (ch :: prev) = false := by
              rw [parityOdd_cons, if_neg hbs]
            have trec := ih rest hr (ch :: prev) true (some q) false false
              (JMode.lit q false) ⟨rfl, rfl, hqq, rfl, rfl, hpar.symm⟩
            cases esc <;>
              simp [stripGo, stripSpecGo, hq, hbs, hchq, trec]

/-- `noCommentsGo mode l = true` when scanning `l` from `mode` never enters a
line or block comment outside a string literal. -/
def noCommentsGo : JMode → Str → Bool
  | _, [] => true
  | JMode.lineC, _ :: _ => false
  | JMode.blockC, _ :: _ => false
  | JMode.text, c :: rest =>
    if c = '/' ∧ (rest.head? = some '/' ∨ rest.head? = some '*') then false
    else if c = '"' ∨ c = '\'' then noCommentsGo (JMode.lit c false) rest
    else noCommentsGo JMode.text rest
  | JMode.lit q esc, c :: rest =>
    if esc then noCommentsGo (JMode.lit q false) rest
    else if c = '\\' then noCommentsGo (JMode.lit q true) rest
    else if c = q then noCommentsGo JMode.text rest
    else noCommentsGo (JMode.lit q false) rest

/-- The input contains no `//` or `/*` comment opener outside string literals. -/
def noCommentsOutsideStrings (s : String) : Bool :=
  noCommentsGo JMode.text s.data

theorem noComments_strip_id : ∀ (l : Str) (mode : JMode),
    (mode = JMode.text ∨ ∃ q esc, mode = JMode.lit q esc) →
    noCommentsGo mode l = true → stripSpecGo mode l = l := by
  intro l
  induction l with
  | nil =>
    intro mode _ _
    cases mode <;> simp [stripSpecGo]
  | cons c rest ih =>
    intro mode hmode hnc
    rcases hmode with rfl | ⟨q, esc, rfl⟩
    · by_cases hcom : c = '/' ∧ (rest.head? = some '/' ∨ rest.head? = some '*')
      · rw [noCommentsGo, if_pos hcom] at hnc
        cases hnc
      · have hnl : ¬ (c = '/' ∧ rest.head? = some '/') :=
          fun h => hcom ⟨h.1, Or.inl h.2⟩
        have hnb : ¬ (c = '/' ∧ rest.head? = some '*') :=
          fun h => hcom ⟨h.1, Or.inr h.2⟩
        by_cases hq : c = '"' ∨ c = '\''
        · rw [noCommentsGo, if_neg hcom, if_pos hq] at hnc
          simp [stripSpecGo, hnl, hnb, hq, ih _ (Or.inr ⟨c, false, rfl⟩) hnc]
        · rw [noCommentsGo, if_neg hcom, if_neg hq] at hnc
          simp [stripSpecGo, hnl, hnb, hq, ih _ (Or.inl rfl) hnc]
    · cases esc with
      | true =>
        simp only [noCommentsGo, if_true] at hnc
        simp [stripSpecGo, ih _ (Or.inr ⟨q, false, rfl⟩) hnc]
      | false =>
        by_cases hbs : c = '\\'
        · subst hbs
          simp only [noCommentsGo, if_false, if_pos rfl, Bool.false_eq_true, reduceIte] at hnc
          simp [stripSpecGo, ih _ (Or.inr ⟨q, true, rfl⟩) hnc]
        · by_cases hcq : c = q
          · simp only [noCommentsGo, Bool.false_eq_true, reduceIte, if_neg hbs, if_pos hcq] at hnc
            subst hcq
            simp [stripSpecGo, hbs, ih _ (Or.inl rfl) hnc]
          · simp only [noCommentsGo, Bool.false_eq_true, reduceIte, if_neg hbs, if_neg hcq] at hnc
            simp [stripSpecGo, hbs, hcq, ih _ (Or.inr ⟨q, false, rfl⟩) hnc]

/-- C1: for every input string, `stripJsonComments` behaves exactly as the
mode-machine specification: it removes `//` line comments (up to but not
including the terminating newline) and `/* ... */` block comments occurring
outside string literals, copies every character inside string literals
unchanged, and returns inputs containing no comments outside string literals
unchanged. -/
theorem stripJsonComments_correct :
    (∀ s : String, stripJsonComments s = stripJsonCommentsSpec s) ∧
    (∀ s : String, noCommentsOutsideStrings s = true → stripJsonComments s = s) := by
  constructor
  · intro s
    exact congrArg String.mk
      (stripGo_eq_spec s.data.length s.data le_rfl [] false none false false JMode.text
        ⟨rfl, rfl, rfl, rfl⟩)
  · intro s h
    obtain ⟨d⟩ := s
    unfold stripJsonComments
    have h1 := stripGo_eq_spec d.length d le_rfl [] false none false false JMode.text
      ⟨rfl, rfl, rfl, rfl⟩
    have h2 := noComments_strip_id d JMode.text (Or.inl rfl) h
    simp only at h1 h2 ⊢
    rw [h1, h2]

/-- Witness for C1 at a concrete input: a string whose only comment-like
sequences sit inside string literals is returned unchanged. -/
theorem stripJsonComments_correct_witness :
    noCommentsOutsideStrings "[\"a//b\", \"/*x*/\"]" = true ∧
    stripJsonComments "[\"a//b\", \"/*x*/\"]" = "[\"a//b\", \"/*x*/\"]" :=
  ⟨by decide, stripJsonComments_correct.2 _ (by decide)⟩

/-! ## `injectStyle` (font manager, src/unnamed/part_000, lines 381-394) -/

/-- The literal `"</head>"` searched by `injectStyle`. -/
def headCloseTag : Str := "</head>".data

/-- Embedding of `injectStyle`: splice the markup in front of the first
`</head>`, or append it at the end when there is none. -/
def injectStyle (html styleMarkup : Str) : Str :=
  match subIdx headCloseTag html with
  | none => html ++ '\n' :: (styleMarkup ++ ['\n'])
  | some i => html.take i ++ styleMarkup ++ '\n' :: html.drop i

/-- C2: `injectStyle` inserts the markup immediately before the first
occurrence of `</head>`, followed by a newline; when the HTML has no
`</head>` the markup is appended at the end of the document. -/
theorem injectStyle_correct : ∀ (html styleMarkup : Str),
    (∀ i, begins headCloseTag (html.drop i) = true →
      (∀ j, j < i → begins headCloseTag (html.drop j) = false) →
      injectStyle html styleMarkup = html.take i ++ styleMarkup ++ '\n' :: html.drop i) ∧
    ((∀ j, begins headCloseTag (html.drop j) = false) →
      injectStyle html styleMarkup = html ++ '\n' :: (styleMarkup ++ ['\n'])) := by
  intro html m
  constructor
  · intro i h1 h2
    unfold injectStyle
    rw [subIdx_eq_of_first h1 h2]
  · intro h
    have hnone : subIdx headCloseTag html = none := by
      cases hs : subIdx headCloseTag html with
      | none => rfl
      | some i =>
        have hb := subIdx_some_begins hs
        rw [h i] at hb
        cases hb
    unfold injectStyle
    rw [hnone]

/-- Witness for C2 at a concrete input: the first `</head>` of
`<html><head></head>` sits at index 12 and the markup lands just before it. -/
theorem injectStyle_correct_witness :
    begins headCloseTag (("<html><head></head>".data).drop 12) = true ∧
    (∀ j, j < 12 → begins headCloseTag (("<html><head></head>".data).drop j) = false) ∧
    injectStyle "<html><head></head>".data "<style>x</style>".data =
      ("<html><head>".data ++ "<style>x</style>".data ++ '\n' :: "</head>".data) := by
  refine ⟨by decide, by decide, ?_⟩
  rw [(injectStyle_correct "<html><head></head>".data "<style>x</style>".data).1 12
    (by decide) (by decide)]
  decide

/-! ## `getStyleMarkup` and `removeStyle` (font manager, lines 353-405)

`getStyleMarkup` escapes double quotes in the font name and builds
`<style id="sh1ffy-tweaks">\n<css>\n</style>`; the `.trim()` of the template
literal removes exactly the leading and the trailing newline (the CSS body
starts with `*` and ends with a closing brace for every font), so the
trimmed text is written out directly here.

`removeStyle` applies `String.replace` with the non-global regex
`<style\s+id="sh1ffy-tweaks"[^>]*>[\s\S]*?<\/style>`; for this pattern the
JS semantics are: leftmost starting position with a full match wins, `\s+`
takes the maximal whitespace run (the following literal starts with `i`,
which is not whitespace, so no backtracking succeeds with a shorter run),
greedy `[^>]*` runs up to the first `>`, and the lazy body ends at the first
`</style>`. -/

/-- `STYLE_ID` from the font manager. -/
def STYLE_ID : Str := "sh1ffy-tweaks".data

/-- `STYLE_TAG_OPEN`, the exact opening-tag marker `<style id="sh1ffy-tweaks">`. -/
def STYLE_TAG_OPEN : Str := "<style id=\"sh1ffy-tweaks\">".data

/-- `fontFamily.replace(/"/g, '\\"')` from `getStyleMarkup`. -/
def escQuotes : Str → Str
  | [] => []
  | '"' :: t => '\\' :: '"' :: escQuotes t
  | c :: t => c :: escQuotes t

/-- The CSS template text before the interpolated font name. -/
def cssPre : Str :=
  "*:not(\n  .monaco-editor-background,\n  .monaco-editor-background *,\n  .sticky-widget-lines-scrollable,\n  .sticky-widget-lines-scrollable *,\n  .notebookOverlay,\n  .notebookOverlay *\n),\n.extensions-search-container *,\n.settings-editor * \x7b\n  font-family: \"".data

/-- The CSS template text after the interpolated font name. -/
def cssPost : Str := "\";\n\x7d".data

/-- The trimmed CSS of `getStyleMarkup`. -/
def cssOf (fontFamily : Str) : Str := cssPre ++ escQuotes fontFamily ++ cssPost

/-- Embedding of `getStyleMarkup`. -/
def getStyleMarkup (fontFamily : Str) : Str :=
  STYLE_TAG_OPEN ++ '\n' :: (cssOf fontFamily ++ '\n' :: "</style>".data)

/-- JS `\s` (the RegExp whitespace class). -/
def isJsWS (c : Char) : Bool :=
  c = ' ' ∨ c = '\t' ∨ c = '\n' ∨ c = '\r' ∨ c = '\x0b' ∨ c = '\x0c' ∨
  c = '\u00A0' ∨ c = '\u1680' ∨ ('\u2000' ≤ c ∧ c ≤ '\u200A') ∨
  c = '\u2028' ∨ c = '\u2029' ∨ c = '\u202F' ∨ c = '\u205F' ∨ c = '\u3000' ∨ c = '\uFEFF'

/-- The literal `<style` of the removal pattern. -/
def styleLit : Str := "<style".data

/-- The literal `id="sh1ffy-tweaks"` of the removal pattern. -/
def idLit : Str := "id=\"sh1ffy-tweaks\"".data

/-- The literal `</style>`. -/
def styleCloseLit : Str := "</style>".data

/-- Match length of the removal regex when anchored at the head of `l`. -/
def matchStyleAt (l : Str) : Option Nat :=
  if begins styleLit l then
    let l1 := l.drop 6
    let w := (l1.takeWhile isJsWS).length
    if w = 0 then none
    else
      let l2 := l1.drop w
      if begins idLit l2 then
        let l3 := l2.drop 18
        let g := (l3.takeWhile (fun c => ¬ (c = '>'))).length
        match l3.drop g with
        | [] => none
        | _ :: l4 =>
          match subIdx styleCloseLit l4 with
          | none => none
          | some cIdx => some (6 + w + 18 + g + 1 + cIdx + 8)
      else none
  else none

/-- Leftmost full match of the removal regex: start index and match length. -/
def firstStyleMatch : Str → Option (Nat × Nat)
  | [] => none
  | l@(_ :: t) =>
    match matchStyleAt l with
    | some m => some (0, m)
    | none => (firstStyleMatch t).map (fun p => (p.1 + 1, p.2))

/-- Embedding of `removeStyle`. -/
def removeStyle (html : Str) : Str :=
  match firstStyleMatch html with
  | none => html
  | some (i, m) => html.take i ++ html.drop (i + m)

/-! ## Support lemmas for the C3 analysis -/

theorem begins_length {pat l : Str} (h : begins pat l = true) : pat.length ≤ l.length := by
  obtain ⟨t, rfl⟩ := begins_iff_append.mp h
  simp

theorem begins_of_take {pat l : Str} {n : Nat} (h : begins pat (l.take n) = true) :
    begins pat l = true := by
  obtain ⟨t, ht⟩ := begins_iff_append.mp h
  have hl : l = pat ++ (t ++ l.drop n) := by
    conv_lhs => rw [← List.take_append_drop n l]
    rw [ht, List.append_assoc]
  exact begins_iff_append.mpr ⟨t ++ l.drop n, hl⟩

theorem begins_getElem {pat l : Str} (h : begins pat l = true) :
    ∀ k, k < pat.length → l[k]? = pat[k]? := by
  obtain ⟨t, rfl⟩ := begins_iff_append.mp h
  intro k hk
  exact List.getElem?_append_left hk

theorem begins_of_getElem {pat l : Str} (h : ∀ k, k < pat.length → l[k]? = pat[k]?) :
    begins pat l = true := by
  induction pat generalizing l with
  | nil => simp [begins]
  | cons p ps ih =>
    have h0 : l[0]? = some p := by simpa using h 0 (by simp)
    cases l with
    | nil => simp at h0
    | cons c cs =>
      simp only [List.getElem?_cons_zero, Option.some.injEq] at h0
      subst h0
      simp only [begins, decide_True, Bool.true_and]
      refine ih fun k hk => ?_
      have := h (k + 1) (by simpa using Nat.succ_lt_succ hk)
      simpa using this

theorem takeWhile_append_all {p : Char → Bool} {x : Str} (y : Str)
    (h : ∀ c ∈ x, p c = true) : (x ++ y).takeWhile p = x ++ y.takeWhile p := by
  induction x with
  | nil => simp
  | cons c cs ih =>
    have hc : p c = true := h c (by simp)
    simp only [List.cons_append, List.takeWhile_cons, hc, if_true]
    rw [ih fun d hd => h d (by simp [hd])]

theorem drop_takeWhile_length (p : Char → Bool) (l : Str) :
    l.drop (l.takeWhile p).length = l.dropWhile p := by
  nth_rewrite 2 [← List.takeWhile_append_dropWhile p l]
  exact List.drop_left _ _

/-- The opening part of the removal pattern, `<style` + whitespace+ +
`id="sh1ffy-tweaks"`, matches at the head of `l`. -/
def liberalOpenAt (l : Str) : Bool :=
  begins styleLit l &&
    (decide (((l.drop 6).takeWhile isJsWS).length ≠ 0) &&
     begins idLit ((l.drop 6).drop ((l.drop 6).takeWhile isJsWS).length))

/-- Some suffix of `l` starts with `<style` + whitespace+ + `id="sh1ffy-tweaks"`. -/
def hasLiberalOpen : Str → Bool
  | [] => false
  | l@(_ :: t) => liberalOpenAt l || hasLiberalOpen t

theorem liberalOpenAt_iff_sem {l : Str} :
    liberalOpenAt l = true ↔
      ∃ ws t, ws ≠ [] ∧ (∀ c ∈ ws, isJsWS c = true) ∧
        l = styleLit ++ ws ++ (idLit ++ t) := by
  constructor
  · intro h
    simp only [liberalOpenAt, Bool.and_eq_true, decide_eq_true_eq] at h
    obtain ⟨h1, h2, h3⟩ := h
    obtain ⟨r, hr⟩ := begins_iff_append.mp h1
    have hdrop6 : l.drop 6 = r := by
      rw [hr]
      exact List.drop_left styleLit r
    rw [hdrop6] at h2 h3
    rw [drop_takeWhile_length] at h3
    obtain ⟨t, ht⟩ := begins_iff_append.mp h3
    refine ⟨r.takeWhile isJsWS, t, ?_, fun c hc => List.mem_takeWhile_imp hc, ?_⟩
    · intro hnil
      rw [hnil] at h2
      simp at h2
    · rw [hr, ← ht, List.append_assoc, List.takeWhile_append_dropWhile]
  · rintro ⟨ws, t, hne, hws, rfl⟩
    have hdrop6 : (styleLit ++ ws ++ (idLit ++ t)).drop 6 = ws ++ (idLit ++ t) := by
      rw [List.append_assoc]
      exact List.drop_left styleLit _
    have htw : (ws ++ (idLit ++ t)).takeWhile isJsWS = ws := by
      rw [takeWhile_append_all _ hws]
      have : (idLit ++ t).takeWhile isJsWS = [] := by
        have : idLit ++ t = 'i' :: ("d=\"sh1ffy-tweaks\"".data ++ t) := by
          simp [idLit]
        rw [this]
        simp [List.takeWhile_cons]
        decide
      rw [this, List.append_nil]
    simp only [liberalOpenAt, Bool.and_eq_true, decide_eq_true_eq]
    refine ⟨?_, ?_, ?_⟩
    · rw [List.append_assoc]
      exact begins_append_self _ _
    · rw [hdrop6, htw]
      simpa using hne
    · rw [hdrop6, htw, List.drop_left]
      exact begins_append_self _ _

theorem liberalOpenAt_length {l : Str} (h : liberalOpenAt l = true) : 25 ≤ l.length := by
  obtain ⟨ws, t, hne, _, rfl⟩ := liberalOpenAt_iff_sem.mp h
  have : 1 ≤ ws.length := by
    cases ws with
    | nil => exact absurd rfl hne
    | cons a b => simp
  simp only [List.length_append]
  have h1 : styleLit.length = 6 := by decide
  have h2 : idLit.length = 18 := by decide
  omega

theorem liberalOpenAt_take {l : Str} {n : Nat} (h : liberalOpenAt (l.take n) = true) :
    liberalOpenAt l = true := by
  obtain ⟨ws, t, hne, hws, heq⟩ := liberalOpenAt_iff_sem.mp h
  refine liberalOpenAt_iff_sem.mpr ⟨ws, t ++ l.drop n, hne, hws, ?_⟩
  conv_lhs => rw [← List.take_append_drop n l]
  rw [heq]
  simp [List.append_assoc]

theorem hasLiberalOpen_true_of_drop {l : Str} {p : Nat}
    (h : liberalOpenAt (l.drop p) = true) : hasLiberalOpen l = true := by
  induction l generalizing p with
  | nil =>
    rw [List.drop_nil] at h
    have := liberalOpenAt_length h
    simp at this
  | cons c t ih =>
    cases p with
    | zero =>
      rw [List.drop_zero] at h
      simp [hasLiberalOpen, h]
    | succ p' =>
      simp only [List.drop_succ_cons] at h
      simp [hasLiberalOpen, ih h]

theorem hasLiberalOpen_false_drops {l : Str} (h : hasLiberalOpen l = false) :
    ∀ p, liberalOpenAt (l.drop p) = false := by
  intro p
  cases hx : liberalOpenAt (l.drop p) with
  | false => rfl
  | true => rw [hasLiberalOpen_true_of_drop hx] at h; cases h

/-- A single-space opening (the exact marker prefix) is a liberal opening. -/
theorem begins_markerPrefix_liberal {l : Str}
    (h : begins (styleLit ++ ' ' :: idLit) l = true) : liberalOpenAt l = true := by
  obtain ⟨t, rfl⟩ := begins_iff_append.mp h
  refine liberalOpenAt_iff_sem.mpr ⟨[' '], t, by simp, ?_, by simp⟩
  intro c hc
  simp only [List.mem_singleton] at hc
  subst hc
  decide

/-- Every double quote in `l` is directly preceded by a space or backslash,
or directly followed by a semicolon.  The exact marker
`<style id="sh1ffy-tweaks">` needs a quote preceded by `=` and followed by
`s`, so no text satisfying this invariant contains the marker. -/
def QuoteProp (l : Str) : Prop :=
  ∀ j, l[j]? = some '"' →
    (1 ≤ j ∧ (l[j-1]? = some ' ' ∨ l[j-1]? = some '\\')) ∨ l[j+1]? = some ';'

/-- Bounded, decidable form of `QuoteProp`. -/
def quotePropB (l : Str) : Bool :=
  decide (∀ j, j < l.length → (l[j]? = some '"' →
    (1 ≤ j ∧ (l[j-1]? = some ' ' ∨ l[j-1]? = some '\\')) ∨ l[j+1]? = some ';'))

theorem QuoteProp_of_bounded {l : Str} (h : quotePropB l = true) : QuoteProp l := by
  intro j hj
  by_cases hlt : j < l.length
  · exact of_decide_eq_true h j hlt hj
  · rw [List.getElem?_eq_none (by omega)] at hj
    cases hj

theorem QuoteProp_append {x y : Str} (hx : QuoteProp x) (hy : QuoteProp y) :
    QuoteProp (x ++ y) := by
  intro j hj
  by_cases hlt : j < x.length
  · rw [List.getElem?_append_left hlt] at hj
    rcases hx j hj with ⟨h1, h2⟩ | h3
    · exact Or.inl ⟨h1, by rwa [List.getElem?_append_left (by omega)]⟩
    · have hjl : j + 1 < x.length := (List.getElem?_eq_some.mp h3).1
      exact Or.inr (by rwa [List.getElem?_append_left hjl])
  · push_neg at hlt
    rw [List.getElem?_append_right hlt] at hj
    rcases hy (j - x.length) hj with ⟨h1, h2⟩ | h3
    · refine Or.inl ⟨by omega, ?_⟩
      rw [List.getElem?_append_right (by omega)]
      have harith : j - 1 - x.length = j - x.length - 1 := by omega
      rwa [harith]
    · refine Or.inr ?_
      rw [List.getElem?_append_right (by omega)]
      have harith : j + 1 - x.length = j - x.length + 1 := by omega
      rwa [harith]

theorem QuoteProp_drop {l : Str} {x : Nat} (h : QuoteProp l) (hx1 : 1 ≤ x)
    (hx : ¬ (l[x-1]? = some ' ' ∨ l[x-1]? = some '\\')) : QuoteProp (l.drop x) := by
  intro r hr
  rw [List.getElem?_drop] at hr
  rcases h (x + r) hr with ⟨h1, h2⟩ | h3
  · cases r with
    | zero =>
      have harith : x + 0 - 1 = x - 1 := by omega
      rw [harith] at h2
      exact absurd h2 hx
    | succ r' =>
      refine Or.inl ⟨by omega, ?_⟩
      rw [List.getElem?_drop]
      have harith1 : r' + 1 - 1 = r' := by omega
      have harith2 : x + (r' + 1) - 1 = x + r' := by omega
      rw [harith1]
      rwa [harith2] at h2
  · refine Or.inr ?_
    rw [List.getElem?_drop]
    have harith : x + (r + 1) = x + r + 1 := by omega
    rwa [harith]

/-- In `escQuotes font` every double quote is directly preceded by the
backslash that escaped it. -/
theorem escQuotes_inv (font : Str) :
    ∀ j, (escQuotes font)[j]? = some '"' →
      1 ≤ j ∧ (escQuotes font)[j-1]? = some '\\' := by
  induction font with
  | nil =>
    intro j hj
    simp [escQuotes] at hj
  | cons c t ih =>
    by_cases hc : c = '"'
    · subst hc
      intro j hj
      match j with
      | 0 =>
        rw [show escQuotes ('"' :: t) = '\\' :: '"' :: escQuotes t from rfl] at hj
        simp at hj
      | 1 => exact ⟨by omega, rfl⟩
      | (k+2) =>
        rw [show escQuotes ('"' :: t) = '\\' :: '"' :: escQuotes t from rfl] at hj
        simp only [List.getElem?_cons_succ] at hj
        obtain ⟨h1, h2⟩ := ih k hj
        refine ⟨by omega, ?_⟩
        rw [show escQuotes ('"' :: t) = '\\' :: '"' :: escQuotes t from rfl]
        have harith : k + 2 - 1 = k + 1 := by omega
        rw [harith]
        simp only [List.getElem?_cons_succ]
        cases k with
        | zero => omega
        | succ k' =>
          have harith2 : k' + 1 - 1 = k' := by omega
          rw [harith2] at h2
          simpa using h2
    · have hesc : escQuotes (c :: t) = c :: escQuotes t := by
        rw [escQuotes]
        exact fun h => hc h
      intro j hj
      rw [hesc] at hj
      cases j with
      | zero =>
        simp only [List.getElem?_cons_zero, Option.some.injEq] at hj
        exact absurd hj hc
      | succ k =>
        simp only [List.getElem?_cons_succ] at hj
        obtain ⟨h1, h2⟩ := ih k hj
        refine ⟨by omega, ?_⟩
        rw [hesc]
        have harith : k + 1 - 1 = k := by omega
        rw [harith]
        cases k with
        | zero => omega
        | succ k' =>
          have harith2 : k' + 1 - 1 = k' := by omega
          rw [harith2] at h2
          simpa using h2

theorem QuoteProp_escQuotes (font : Str) : QuoteProp (escQuotes font) := by
  intro j hj
  obtain ⟨h1, h2⟩ := escQuotes_inv font j hj
  exact Or.inl ⟨h1, Or.inr h2⟩

/-- The CSS body of the injected markup, with the final `\n</style>`,
satisfies the quote invariant for every font. -/
theorem QuoteProp_markupTail (font : Str) :
    QuoteProp ('\n' :: (cssOf font ++ '\n' :: styleCloseLit)) := by
  have hshape : '\n' :: (cssOf font ++ '\n' :: styleCloseLit) =
      ('\n' :: cssPre) ++ (escQuotes font ++ (cssPost ++ '\n' :: styleCloseLit)) := by
    simp [cssOf, List.append_assoc]
  rw [hshape]
  refine QuoteProp_append ?_ (QuoteProp_append (QuoteProp_escQuotes font) ?_)
  · exact QuoteProp_of_bounded (by decide)
  · exact QuoteProp_of_bounded (by decide)

/-- The part of the markup after the opening tag. -/
def markupTail (font : Str) : Str := '\n' :: (cssOf font ++ '\n' :: styleCloseLit)

theorem getStyleMarkup_eq (font : Str) :
    getStyleMarkup font = STYLE_TAG_OPEN ++ markupTail font := rfl

theorem tagOpen_decomp : STYLE_TAG_OPEN = styleLit ++ ' ' :: (idLit ++ ['>']) := by decide

theorem matchStyleAt_open (tail : Str) (cIdx : Nat)
    (hc : subIdx styleCloseLit tail = some cIdx) :
    matchStyleAt (STYLE_TAG_OPEN ++ tail) = some (26 + (cIdx + 8)) := by
  have hshape : STYLE_TAG_OPEN ++ tail = styleLit ++ (' ' :: (idLit ++ ('>' :: tail))) := by
    rw [tagOpen_decomp]
    simp
  rw [hshape]
  unfold matchStyleAt
  rw [if_pos (begins_append_self _ _)]
  have hd6 : (styleLit ++ (' ' :: (idLit ++ ('>' :: tail)))).drop 6 =
      ' ' :: (idLit ++ ('>' :: tail)) := by
    rw [show (6 : Nat) = styleLit.length from rfl]
    exact List.drop_left _ _
  rw [hd6]
  have htw : ((' ' :: (idLit ++ ('>' :: tail))).takeWhile isJsWS) = [' '] := by
    rw [show idLit ++ ('>' :: tail) = 'i' :: ("d=\"sh1ffy-tweaks\"".data ++ ('>' :: tail)) from rfl]
    rw [List.takeWhile_cons, List.takeWhile_cons]
    simp only [show isJsWS ' ' = true from by decide, show isJsWS 'i' = false from by decide,
      if_true, if_false]
    simp
  simp only [htw, List.length_cons, List.length_nil]
  norm_num
  refine ⟨begins_append_self _ _, ?_⟩
  have hd18 : (idLit ++ ('>' :: tail)).drop 18 = '>' :: tail := by
    rw [show (18 : Nat) = idLit.length from rfl]
    exact List.drop_left _ _
  rw [hd18]
  have htw2 : (('>' :: tail).takeWhile (fun c => !decide (c = '>'))) = [] := by
    rw [List.takeWhile_cons]
    simp
  rw [htw2]
  simp only [List.length_nil, Nat.add_zero]
  rw [hd18]
  simp only [hc]
  norm_num
  omega

theorem closeLit_in_markupTail (font X : Str) :
    ∃ cIdx, subIdx styleCloseLit (markupTail font ++ X) = some cIdx ∧
      cIdx + 8 ≤ (markupTail font).length ∧
      (markupTail font)[cIdx + 7]? = some '>' := by
  have hshape : markupTail font = ('\n' :: (cssOf font ++ ['\n'])) ++ styleCloseLit := by
    simp [markupTail]
  have hlen : (markupTail font).length = ('\n' :: (cssOf font ++ ['\n'])).length + 8 := by
    rw [hshape, List.length_append]
    rw [show List.length styleCloseLit = 8 from rfl]
  have hocc : begins styleCloseLit
      ((markupTail font ++ X).drop ('\n' :: (cssOf font ++ ['\n'])).length) = true := by
    rw [hshape, List.append_assoc, List.drop_left]
    exact begins_append_self _ _
  obtain ⟨cIdx, hc, hle⟩ := subIdx_isSome_of_occ hocc
  refine ⟨cIdx, hc, by omega, ?_⟩
  have hb := subIdx_some_begins hc
  have h7 := begins_getElem hb 7 (by decide)
  rw [List.getElem?_drop] at h7
  rw [show styleCloseLit[7]? = some '>' from by decide] at h7
  have hlt : cIdx + 7 < (markupTail font).length := by omega
  rw [List.getElem?_append_left hlt] at h7
  exact h7

theorem matchStyleAt_some_liberal {l : Str} {m : Nat} (h : matchStyleAt l = some m) :
    liberalOpenAt l = true := by
  unfold matchStyleAt at h
  split at h
  · rename_i h1
    simp only at h
    split at h
    · cases h
    · rename_i h2
      split at h
      · rename_i h3
        simp only [liberalOpenAt, h1, Bool.true_and, Bool.and_eq_true, decide_eq_true_eq]
        exact ⟨h2, h3⟩
      · cases h
  · cases h

theorem firstStyleMatch_eq {l : Str} {i m : Nat}
    (h2 : ∀ p, p < i → matchStyleAt (l.drop p) = none)
    (h1 : matchStyleAt (l.drop i) = some m) :
    firstStyleMatch l = some (i, m) := by
  induction l generalizing i with
  | nil =>
    rw [List.drop_nil] at h1
    rw [show matchStyleAt ([] : Str) = none from rfl] at h1
    cases h1
  | cons c t ih =>
    cases i with
    | zero =>
      rw [List.drop_zero] at h1
      rw [firstStyleMatch, h1]
    | succ i' =>
      have h0 : matchStyleAt (c :: t) = none := by
        have := h2 0 (by omega)
        rwa [List.drop_zero] at this
      rw [firstStyleMatch, h0]
      have ha : ∀ p, p < i' → matchStyleAt (t.drop p) = none := by
        intro p hp
        have h3 := h2 (p + 1) (by omega)
        rwa [List.drop_succ_cons] at h3
      have hb2 : matchStyleAt (t.drop i') = some m := by
        rwa [List.drop_succ_cons] at h1
      rw [ih ha hb2]
      rfl

/-- A liberal opening that starts at least one character before a spliced-in
suffix beginning with `<` must lie entirely before that suffix. -/
theorem liberal_cross {D suffix : Str} (h : liberalOpenAt (D ++ suffix) = true)
    (hs : suffix[0]? = some '<') (hD : 1 ≤ D.length) : liberalOpenAt D = true := by
  obtain ⟨ws, t, hne, hws, heq⟩ := liberalOpenAt_iff_sem.mp h
  have hP : D ++ suffix = (styleLit ++ ws ++ idLit) ++ t := by
    rw [heq]
    simp [List.append_assoc]
  have hPlen : (styleLit ++ ws ++ idLit).length = 24 + ws.length := by
    simp [List.length_append]
    rw [show styleLit.length = 6 from rfl, show idLit.length = 18 from rfl]
    omega
  by_cases hcase : (styleLit ++ ws ++ idLit).length ≤ D.length
  · -- the opening pattern sits inside D
    have hDeq : D = ((styleLit ++ ws ++ idLit) ++ t).take D.length := by
      rw [← hP, List.take_left]
    have hDeq2 : D = (styleLit ++ ws ++ idLit) ++
        t.take (D.length - (styleLit ++ ws ++ idLit).length) := by
      conv_lhs => rw [hDeq]
      rw [List.take_append_eq_append_take, List.take_of_length_le hcase]
    refine liberalOpenAt_iff_sem.mpr
      ⟨ws, t.take (D.length - (styleLit ++ ws ++ idLit).length), hne, hws, ?_⟩
    rw [hDeq2]
    simp [List.append_assoc]
    omega
  · -- impossible: the character `<` at the splice point would land inside the pattern
    push_neg at hcase
    exfalso
    have hat : (D ++ suffix)[D.length]? = some '<' := by
      rw [List.getElem?_append_right (Nat.le_refl _), Nat.sub_self]
      exact hs
    rw [hP] at hat
    set P := styleLit ++ ws ++ idLit with hPdef
    have hat2 : P[D.length]? = some '<' := by
      rwa [List.getElem?_append_left hcase] at hat
    -- split P regions
    have hsl : styleLit.length = 6 := rfl
    by_cases hj1 : D.length < 6
    · have : styleLit[D.length]? = some '<' := by
        have := hat2
        rw [hPdef, List.append_assoc, List.getElem?_append_left (by omega)] at this
        exact this
      have hno : ∀ j, 1 ≤ j → j < 6 → ¬ (styleLit[j]? = some '<') := by decide
      exact hno D.length hD hj1 this
    · push_neg at hj1
      by_cases hj2 : D.length < 6 + ws.length
      · have : ws[D.length - 6]? = some '<' := by
          have := hat2
          rw [hPdef, List.append_assoc, List.getElem?_append_right (by omega)] at this
          rw [hsl] at this
          rwa [List.getElem?_append_left (by omega)] at this
        have hmem : '<' ∈ ws := List.getElem?_mem this
        have := hws '<' hmem
        exact absurd this (by decide)
      · push_neg at hj2
        have hj3 : D.length - 6 - ws.length < 18 := by
          rw [hPlen] at hcase
          omega
        have : idLit[D.length - 6 - ws.length]? = some '<' := by
          have := hat2
          rw [hPdef, List.append_assoc, List.getElem?_append_right (by omega)] at this
          rw [hsl] at this
          rwa [List.getElem?_append_right (by omega)] at this
        have hno : ∀ k, k < 18 → ¬ (idLit[k]? = some '<') := by decide
        exact hno _ hj3 this

/-- For indices below 25 the exact marker agrees with `<style` + single
space + `id="sh1ffy-tweaks"`. -/
theorem markerPrefix_char : ∀ k, k < 25 →
    STYLE_TAG_OPEN[k]? = (styleLit ++ ' ' :: idLit)[k]? := by decide

/-- Core of the C3 analysis: a splice `A ++ R ++ '\n' :: B` contains no exact
marker when `A` and `B` contain no liberal opening and `R` satisfies the
quote invariant. -/
theorem marker_not_in_splice (A R B : Str)
    (hA : ∀ p, liberalOpenAt (A.drop p) = false)
    (hB : ∀ p, liberalOpenAt (B.drop p) = false)
    (hR : QuoteProp R) :
    containsSub STYLE_TAG_OPEN (A ++ (R ++ '\n' :: B)) = false := by
  cases hcs : containsSub STYLE_TAG_OPEN (A ++ (R ++ '\n' :: B)) with
  | false => rfl
  | true =>
    exfalso
    obtain ⟨s, t, heq⟩ := containsSub_iff.mp hcs
    have hchar : ∀ k, k < 26 → (A ++ (R ++ '\n' :: B))[s.length + k]? = STYLE_TAG_OPEN[k]? := by
      intro k hk
      rw [heq, List.append_assoc, List.getElem?_append_right (by omega)]
      have harith : s.length + k - s.length = k := by omega
      rw [harith]
      rw [List.getElem?_append_left (by rw [show STYLE_TAG_OPEN.length = 26 from rfl]; omega)]
    have hq24 : (A ++ (R ++ '\n' :: B))[s.length + 24]? = some '"' :=
      (hchar 24 (by omega)).trans (by decide)
    have hq23 : (A ++ (R ++ '\n' :: B))[s.length + 23]? = some 's' :=
      (hchar 23 (by omega)).trans (by decide)
    have hq25 : (A ++ (R ++ '\n' :: B))[s.length + 25]? = some '>' :=
      (hchar 25 (by omega)).trans (by decide)
    by_cases hc1 : s.length + 24 < A.length
    · -- the whole 25-char marker prefix lies inside A
      have hbg : begins (styleLit ++ ' ' :: idLit) (A.drop s.length) = true := by
        apply begins_of_getElem
        intro k hk
        have hk25 : k < 25 := by
          rw [show (styleLit ++ ' ' :: idLit).length = 25 from rfl] at hk
          exact hk
        rw [List.getElem?_drop]
        have h1 : (A ++ (R ++ '\n' :: B))[s.length + k]? = A[s.length + k]? :=
          List.getElem?_append_left (by omega)
        rw [← h1, hchar k (by omega)]
        exact markerPrefix_char k hk25
      have hlib := begins_markerPrefix_liberal hbg
      rw [hA s.length] at hlib
      cases hlib
    · push_neg at hc1
      by_cases hc2 : s.length + 24 - A.length < R.length
      · -- the second quote of the marker lands inside R
        have hqR : R[s.length + 24 - A.length]? = some '"' := by
          have h0 := hq24
          rw [List.getElem?_append_right (by omega),
            List.getElem?_append_left (by omega)] at h0
          exact h0
        rcases hR _ hqR with ⟨h1, h2⟩ | h3
        · have hT23 : (A ++ (R ++ '\n' :: B))[s.length + 23]? =
              R[s.length + 24 - A.length - 1]? := by
            rw [List.getElem?_append_right (by omega),
              List.getElem?_append_left (by omega)]
            congr 1
            omega
          rw [hq23] at hT23
          rcases h2 with h2 | h2 <;> rw [h2] at hT23 <;> exact absurd hT23 (by decide)
        · have hlt : s.length + 24 - A.length + 1 < R.length :=
            (List.getElem?_eq_some.mp h3).1
          have hT25 : (A ++ (R ++ '\n' :: B))[s.length + 25]? =
              R[s.length + 24 - A.length + 1]? := by
            rw [List.getElem?_append_right (by omega),
              List.getElem?_append_left (by omega)]
            congr 1
            omega
          rw [hq25, h3] at hT25
          exact absurd hT25 (by decide)
      · push_neg at hc2
        by_cases hc3 : s.length + 24 - A.length = R.length
        · -- the second quote would land on the spliced newline
          have hT24 : (A ++ (R ++ '\n' :: B))[s.length + 24]? = some '\n' := by
            rw [List.getElem?_append_right (by omega),
              List.getElem?_append_right (by omega)]
            have harith : s.length + 24 - A.length - R.length = 0 := by omega
            rw [harith]
            simp
          rw [hq24] at hT24
          exact absurd hT24 (by decide)
        · have hc4 : R.length < s.length + 24 - A.length := by omega
          by_cases hc5 : A.length + R.length + 1 ≤ s.length
          · -- the whole marker prefix lies inside B
            have hbg : begins (styleLit ++ ' ' :: idLit)
                (B.drop (s.length - (A.length + R.length + 1))) = true := by
              apply begins_of_getElem
              intro k hk
              have hk25 : k < 25 := by
                rw [show (styleLit ++ ' ' :: idLit).length = 25 from rfl] at hk
                exact hk
              rw [List.getElem?_drop]
              have h1 : (A ++ (R ++ '\n' :: B))[s.length + k]? =
                  B[s.length - (A.length + R.length + 1) + k]? := by
                rw [List.getElem?_append_right (by omega),
                  List.getElem?_append_right (by omega)]
                have harith : s.length + k - A.length - R.length =
                    (s.length - (A.length + R.length + 1) + k) + 1 := by omega
                rw [harith]
                simp
              rw [← h1, hchar k (by omega)]
              exact markerPrefix_char k hk25
            have hlib := begins_markerPrefix_liberal hbg
            rw [hB (s.length - (A.length + R.length + 1))] at hlib
            cases hlib
          · -- the spliced newline falls inside the marker: impossible
            push_neg at hc5
            have hk0lt : A.length + R.length - s.length < 25 := by omega
            have hTk0 : (A ++ (R ++ '\n' :: B))[s.length + (A.length + R.length - s.length)]? =
                some '\n' := by
              rw [List.getElem?_append_right (by omega),
                List.getElem?_append_right (by omega)]
              have harith : s.length + (A.length + R.length - s.length) - A.length - R.length = 0 := by
                omega
              rw [harith]
              simp
            rw [hchar _ (by omega)] at hTk0
            have hno : ∀ k, k < 26 → ¬ (STYLE_TAG_OPEN[k]? = some '\n') := by decide
            exact hno _ (by omega) hTk0

theorem liberalOpenAt_append_newline {y : Str}
    (h : liberalOpenAt (y ++ ['\n']) = true) : liberalOpenAt y = true := by
  obtain ⟨ws, t, hne, hws, heq⟩ := liberalOpenAt_iff_sem.mp h
  rcases List.eq_nil_or_concat t with rfl | ⟨t', a, rfl⟩
  · exfalso
    have hlast : (y ++ ['\n']).getLast? = some '\n' := List.getLast?_concat y
    rw [heq] at hlast
    rw [List.append_nil] at hlast
    have hlast2 : (styleLit ++ ws ++ idLit).getLast? = some '"' := by
      rw [List.getLast?_append]
      rw [show idLit.getLast? = some '"' from by decide]
      rfl
    rw [hlast2] at hlast
    simp at hlast
  · rw [List.concat_eq_append] at heq
    have hy : y = styleLit ++ ws ++ (idLit ++ t') := by
      have h1 : y ++ ['\n'] = (styleLit ++ ws ++ (idLit ++ t')) ++ [a] := by
        rw [heq]
        simp [List.append_assoc]
      have h2 : y = ((styleLit ++ ws ++ (idLit ++ t')) ++ [a]).dropLast := by
        rw [← h1]
        simp
      rw [h2]
      simp
    exact liberalOpenAt_iff_sem.mpr ⟨ws, t', hne, hws, hy⟩

/-- Transfer of liberal-open freeness to the two `injectStyle` prefix shapes. -/
theorem liberalFree_take {html : Str} (h : hasLiberalOpen html = false) (n : Nat) :
    ∀ p, liberalOpenAt ((html.take n).drop p) = false := by
  intro p
  cases hx : liberalOpenAt ((html.take n).drop p) with
  | false => rfl
  | true =>
    exfalso
    rw [List.drop_take] at hx
    have h2 := liberalOpenAt_take hx
    rw [hasLiberalOpen_false_drops h p] at h2
    cases h2

theorem liberalFree_append_newline {html : Str} (h : hasLiberalOpen html = false) :
    ∀ p, liberalOpenAt ((html ++ ['\n']).drop p) = false := by
  intro p
  cases hx : liberalOpenAt ((html ++ ['\n']).drop p) with
  | false => rfl
  | true =>
    exfalso
    rw [List.drop_append_eq_append_drop] at hx
    by_cases hp : p ≤ html.length
    · have hzero : p - html.length = 0 := by omega
      rw [hzero, List.drop_zero] at hx
      have h2 := liberalOpenAt_append_newline hx
      rw [hasLiberalOpen_false_drops h p] at h2
      cases h2
    · have hnil : html.drop p = [] := List.drop_eq_nil_of_le (by omega)
      rw [hnil, List.nil_append] at hx
      have h25 := liberalOpenAt_length hx
      have h1 : (List.drop (p - html.length) ['\n']).length ≤ 1 := by
        rw [List.length_drop]
        have hone : (['\n'] : Str).length = 1 := rfl
        omega
      omega

/-- Removal after injection around a liberal-open-free prefix and suffix
leaves no exact marker. -/
theorem removeStyle_splice (A B font : Str)
    (hA : ∀ p, liberalOpenAt (A.drop p) = false)
    (hB : ∀ p, liberalOpenAt (B.drop p) = false) :
    containsSub STYLE_TAG_OPEN
      (removeStyle (A ++ (getStyleMarkup font ++ '\n' :: B))) = false := by
  obtain ⟨cIdx, hc, hcle, hgt⟩ := closeLit_in_markupTail font ('\n' :: B)
  have hmt : getStyleMarkup font ++ '\n' :: B =
      STYLE_TAG_OPEN ++ (markupTail font ++ '\n' :: B) := by
    rw [getStyleMarkup_eq, List.append_assoc]
  have hmatch : matchStyleAt (getStyleMarkup font ++ '\n' :: B) = some (26 + (cIdx + 8)) := by
    rw [hmt]
    exact matchStyleAt_open _ cIdx hc
  have hnone : ∀ p, p < A.length →
      matchStyleAt ((A ++ (getStyleMarkup font ++ '\n' :: B)).drop p) = none := by
    intro p hp
    cases hm : matchStyleAt ((A ++ (getStyleMarkup font ++ '\n' :: B)).drop p) with
    | none => rfl
    | some m =>
      exfalso
      have hlib := matchStyleAt_some_liberal hm
      have hsplit : (A ++ (getStyleMarkup font ++ '\n' :: B)).drop p =
          A.drop p ++ (getStyleMarkup font ++ '\n' :: B) := by
        rw [List.drop_append_eq_append_drop]
        have hz : p - A.length = 0 := by omega
        rw [hz, List.drop_zero]
      rw [hsplit] at hlib
      have hhead : (getStyleMarkup font ++ '\n' :: B)[0]? = some '<' := by
        rw [hmt, List.getElem?_append_left
          (by rw [show STYLE_TAG_OPEN.length = 26 from rfl]; omega)]
        decide
      have hD : 1 ≤ (A.drop p).length := by
        rw [List.length_drop]
        omega
      have hres := liberal_cross hlib hhead hD
      rw [hA p] at hres
      cases hres
  have hfirst : firstStyleMatch (A ++ (getStyleMarkup font ++ '\n' :: B)) =
      some (A.length, 26 + (cIdx + 8)) := by
    apply firstStyleMatch_eq hnone
    rw [List.drop_left]
    exact hmatch
  have hres : removeStyle (A ++ (getStyleMarkup font ++ '\n' :: B)) =
      A ++ ((markupTail font).drop (cIdx + 8) ++ '\n' :: B) := by
    unfold removeStyle
    simp only [hfirst]
    have hleft : (A ++ (getStyleMarkup font ++ '\n' :: B)).take A.length = A :=
      List.take_left A _
    rw [hleft]
    congr 1
    rw [List.drop_append_eq_append_drop]
    have h1 : A.drop (A.length + (26 + (cIdx + 8))) = [] :=
      List.drop_eq_nil_of_le (by omega)
    have h2 : A.length + (26 + (cIdx + 8)) - A.length = 26 + (cIdx + 8) := by omega
    rw [h1, h2, List.nil_append]
    rw [hmt, List.drop_append_eq_append_drop]
    have h3 : STYLE_TAG_OPEN.drop (26 + (cIdx + 8)) = [] :=
      List.drop_eq_nil_of_le (by rw [show STYLE_TAG_OPEN.length = 26 from rfl]; omega)
    have h4 : 26 + (cIdx + 8) - STYLE_TAG_OPEN.length = cIdx + 8 := by
      rw [show STYLE_TAG_OPEN.length = 26 from rfl]
      omega
    rw [h3, h4, List.nil_append]
    rw [List.drop_append_eq_append_drop]
    have h5 : cIdx + 8 - (markupTail font).length = 0 := by omega
    rw [h5, List.drop_zero]
  rw [hres]
  apply marker_not_in_splice _ _ _ hA hB
  apply QuoteProp_drop (show QuoteProp (markupTail font) from QuoteProp_markupTail font)
    (by omega)
  have harith : cIdx + 8 - 1 = cIdx + 7 := by omega
  rw [harith, hgt]
  simp

/-- C3 (amended): for every HTML string containing no substring of the form
`<style` + whitespace + `id="sh1ffy-tweaks"` (a liberal opening of the
removal regex) and every font family, applying `removeStyle` to
`injectStyle html (getStyleMarkup font)` yields HTML in which the marker
`<style id="sh1ffy-tweaks">` does not occur. -/
theorem removeStyle_injectStyle_amended : ∀ (html font : Str),
    hasLiberalOpen html = false →
    containsSub STYLE_TAG_OPEN (removeStyle (injectStyle html (getStyleMarkup font))) = false := by
  intro html font h
  cases hidx : subIdx headCloseTag html with
  | none =>
    have hinj : injectStyle html (getStyleMarkup font) =
        (html ++ ['\n']) ++ (getStyleMarkup font ++ '\n' :: ([] : Str)) := by
      unfold injectStyle
      rw [hidx]
      simp
    rw [hinj]
    refine removeStyle_splice _ _ font (liberalFree_append_newline h) (fun p => ?_)
    rw [List.drop_nil]
    rfl
  | some i =>
    have hinj : injectStyle html (getStyleMarkup font) =
        html.take i ++ (getStyleMarkup font ++ '\n' :: html.drop i) := by
      unfold injectStyle
      rw [hidx]
      simp [List.append_assoc]
    rw [hinj]
    refine removeStyle_splice _ _ font (liberalFree_take h i) (fun p => ?_)
    rw [List.drop_drop]
    exact hasLiberalOpen_false_drops h _

/-- Witness for the amended C3 at a concrete input. -/
theorem removeStyle_injectStyle_amended_witness :
    hasLiberalOpen "<head></head>".data = false ∧
    containsSub STYLE_TAG_OPEN
      (removeStyle (injectStyle "<head></head>".data (getStyleMarkup "Arial".data))) = false :=
  ⟨by decide, removeStyle_injectStyle_amended "<head></head>".data "Arial".data (by decide)⟩

/-- C3 counterexample: the html `<style  id="sh1ffy-tweaks"></style></head>`
(two spaces) does not contain the exact marker, yet after injecting the
Sh1ffy style and removing it the marker remains: the removal regex accepts
the two-space variant and consumes it instead of the injected block. -/
theorem removeStyle_injectStyle_counterexample :
    containsSub STYLE_TAG_OPEN "<style  id=\"sh1ffy-tweaks\"></style></head>".data = false ∧
    containsSub STYLE_TAG_OPEN
      (removeStyle (injectStyle "<style  id=\"sh1ffy-tweaks\"></style></head>".data
        (getStyleMarkup "Arial".data))) = true := by
  constructor
  · decide
  · decide

/-! ## `handleEnableCustomFont` (font manager, lines 147-183) -/

/-- The workbench.html transformation performed by `handleEnableCustomFont`
once a font is configured: when the Sh1ffy style tag is already present the
handler returns before writing, leaving the HTML untouched; otherwise it
injects `getStyleMarkup font`. -/
def enableCustomFontHtml (font html : Str) : Str :=
  if containsSub STYLE_TAG_OPEN html then html
  else injectStyle html (getStyleMarkup font)

/-- The `font-family` declaration with escaped quotes that the claim C5
requires in the injected CSS. -/
def fontFamilyDecl (font : Str) : Str :=
  "font-family: \"".data ++ escQuotes font ++ "\";".data

theorem getStyleMarkup_contains_decl (font : Str) :
    containsSub (fontFamilyDecl font) (getStyleMarkup font) = true := by
  refine containsSub_iff.mpr
    ⟨STYLE_TAG_OPEN ++ '\n' :: "*:not(\n  .monaco-editor-background,\n  .monaco-editor-background *,\n  .sticky-widget-lines-scrollable,\n  .sticky-widget-lines-scrollable *,\n  .notebookOverlay,\n  .notebookOverlay *\n),\n.extensions-search-container *,\n.settings-editor * \x7b\n  ".data,
     "\n\x7d".data ++ '\n' :: styleCloseLit, ?_⟩
  rw [getStyleMarkup_eq, markupTail]
  rw [show cssOf font = ("*:not(\n  .monaco-editor-background,\n  .monaco-editor-background *,\n  .sticky-widget-lines-scrollable,\n  .sticky-widget-lines-scrollable *,\n  .notebookOverlay,\n  .notebookOverlay *\n),\n.extensions-search-container *,\n.settings-editor * \x7b\n  ".data ++ "font-family: \"".data) ++ escQuotes font ++ ("\";".data ++ "\n\x7d".data) from by
    rw [cssOf]
    rw [show cssPre = "*:not(\n  .monaco-editor-background,\n  .monaco-editor-background *,\n  .sticky-widget-lines-scrollable,\n  .sticky-widget-lines-scrollable *,\n  .notebookOverlay,\n  .notebookOverlay *\n),\n.extensions-search-container *,\n.settings-editor * \x7b\n  ".data ++ "font-family: \"".data from by decide]
    rw [show cssPost = "\";".data ++ "\n\x7d".data from by decide]]
  rw [fontFamilyDecl]
  simp [List.append_assoc]

/-- C5: for every configured font family, when the workbench HTML does not
yet contain the Sh1ffy style tag, `handleEnableCustomFont` produces the old
HTML with the style block of `getStyleMarkup` inserted (the block starts
with `<style id="sh1ffy-tweaks">` and its CSS sets `font-family` to the
configured font with double quotes escaped); when the tag is already
present, the HTML is left unchanged. -/
theorem enableCustomFontHtml_correct : ∀ (font html : Str),
    (containsSub STYLE_TAG_OPEN html = true → enableCustomFontHtml font html = html) ∧
    (containsSub STYLE_TAG_OPEN html = false →
      ∃ pre post ins, html = pre ++ post ∧
        enableCustomFontHtml font html = pre ++ ins ++ post ∧
        (ins = getStyleMarkup font ++ ['\n'] ∨
         ins = '\n' :: (getStyleMarkup font ++ ['\n'])) ∧
        begins STYLE_TAG_OPEN (getStyleMarkup font) = true ∧
        containsSub (fontFamilyDecl font) (getStyleMarkup font) = true) := by
  intro font html
  constructor
  · intro h
    rw [enableCustomFontHtml, if_pos h]
  · intro h
    rw [enableCustomFontHtml, if_neg (by rw [h]; exact Bool.false_ne_true)]
    have hbeg : begins STYLE_TAG_OPEN (getStyleMarkup font) = true := by
      rw [getStyleMarkup_eq]
      exact begins_append_self _ _
    cases hidx : subIdx headCloseTag html with
    | none =>
      refine ⟨html, [], '\n' :: (getStyleMarkup font ++ ['\n']), by simp, ?_,
        Or.inr rfl, hbeg, getStyleMarkup_contains_decl font⟩
      unfold injectStyle
      rw [hidx]
      simp
    | some i =>
      refine ⟨html.take i, html.drop i, getStyleMarkup font ++ ['\n'],
        (List.take_append_drop i html).symm, ?_,
        Or.inl rfl, hbeg, getStyleMarkup_contains_decl font⟩
      unfold injectStyle
      rw [hidx]
      simp [List.append_assoc]

/-- Witness for C5 at a concrete input. -/
theorem enableCustomFontHtml_correct_witness :
    containsSub STYLE_TAG_OPEN "<html><head></head></html>".data = false ∧
    (∃ pre post ins, "<html><head></head></html>".data = pre ++ post ∧
      enableCustomFontHtml "Fira Code".data "<html><head></head></html>".data =
        pre ++ ins ++ post ∧
      (ins = getStyleMarkup "Fira Code".data ++ ['\n'] ∨
       ins = '\n' :: (getStyleMarkup "Fira Code".data ++ ['\n'])) ∧
      begins STYLE_TAG_OPEN (getStyleMarkup "Fira Code".data) = true ∧
      containsSub (fontFamilyDecl "Fira Code".data) (getStyleMarkup "Fira Code".data) = true) :=
  ⟨by decide,
   (enableCustomFontHtml_correct "Fira Code".data "<html><head></head></html>".data).2 (by decide)⟩

/-! ## JSON values and JavaScript object semantics

`Json` models parsed JSON/JS values (numbers as integers; the claims never
involve fractional numerics).  Field access and assignment follow JS:
reading a property of a primitive yields `undefined` (here `none`), strict
mode assignment to a non-object throws (modelled as `Option`), truthiness
follows JS coercion. -/

inductive Json where
  | null
  | bool (b : Bool)
  | num (n : Int)
  | str (s : Str)
  | arr (xs : List Json)
  | obj (fields : List (Str × Json))

instance : Inhabited Json := ⟨Json.null⟩

/-- JS truthiness. -/
def truthy : Json → Bool
  | Json.null => false
  | Json.bool b => b
  | Json.num n => decide (n ≠ 0)
  | Json.str s => decide (s ≠ [])
  | Json.arr _ => true
  | Json.obj _ => true

/-- First-match association lookup (JS object property read order). -/
def lookupField : List (Str × Json) → Str → Option Json
  | [], _ => none
  | (k, v) :: fs, key => if k = key then some v else lookupField fs key

/-- JS property assignment on an object: replaces the first matching key in
place, otherwise appends. -/
def setAssoc : List (Str × Json) → Str → Json → List (Str × Json)
  | [], key, v => [(key, v)]
  | (k, w) :: fs, key, v =>
    if k = key then (k, v) :: fs else (k, w) :: setAssoc fs key v

/-- Property read `o.k`: `none` stands for `undefined` (missing key or
primitive receiver).  Reads on `null` are handled at the call sites that can
receive `null`, where JS would throw. -/
def Json.getField : Json → Str → Option Json
  | Json.obj fs, key => lookupField fs key
  | _, _ => none

/-- Strict-mode property assignment `o.k = v`: throws unless `o` is an
object. -/
def jsSetField : Json → Str → Json → Option Json
  | Json.obj fs, key, v => some (Json.obj (setAssoc fs key v))
  | _, _, _ => none

/-- `v === Json.str s` (JS strict equality against a string literal). -/
def isStrVal : Option Json → Str → Bool
  | some (Json.str t), s => t = s
  | _, _ => false

/-! ## POSIX `path.join` -/

/-- Split on `/` (keeping empty segments, as `"a//b".split("/")` would). -/
def splitSegs : Str → List Str
  | [] => [[]]
  | '/' :: t => [] :: splitSegs t
  | c :: t =>
    match splitSegs t with
    | [] => [[c]]
    | s :: ss => (c :: s) :: ss

/-- Rejoin segments with `/`. -/
def joinSegs : List Str → Str
  | [] => []
  | [s] => s
  | s :: rest => s ++ '/' :: joinSegs rest

/-- Resolve `..` segments against an accumulator of already-emitted
segments (in reverse); for absolute paths excess `..` is dropped. -/
def resolveDots (isAbs : Bool) : List Str → List Str → List Str
  | acc, [] => acc.reverse
  | acc, seg :: rest =>
    if seg = "..".data then
      match acc with
      | [] =>
        if isAbs then resolveDots isAbs [] rest
        else resolveDots isAbs ["..".data] rest
      | a :: as =>
        if a = "..".data then resolveDots isAbs (seg :: a :: as) rest
        else resolveDots isAbs as rest
    else resolveDots isAbs (seg :: acc) rest

/-- POSIX `path.normalize` (without Node's trailing-slash preservation,
which no call site here can produce). -/
def pnorm (s : Str) : Str :=
  let isAbs := s.head? = some '/'
  let segs := (splitSegs s).filter (fun t => ¬ (t = []) ∧ ¬ (t = ".".data))
  let out := resolveDots isAbs [] segs
  let body := joinSegs out
  if isAbs then '/' :: body
  else if body = [] then ".".data else body

/-- POSIX `path.join` of two parts. -/
def pjoin (a b : Str) : Str :=
  if a = [] ∧ b = [] then ".".data
  else if a = [] then pnorm b
  else if b = [] then pnorm a
  else pnorm (a ++ '/' :: b)

/-- A well-formed path segment: nonempty, no `/`, not `.` or `..` (every
file name `readdirSync` can report is of this shape). -/
def wfSeg (n : Str) : Bool :=
  decide (n ≠ []) && n.all (fun c => ¬ (c = '/')) &&
    decide (n ≠ ".".data) && decide (n ≠ "..".data)

/-- A normalized absolute directory path: `/seg/…/seg` with well-formed
segments. -/
def normalRootB (root : Str) : Bool :=
  match splitSegs root with
  | [] :: rs => ¬ rs.isEmpty && rs.all wfSeg
  | _ => false

theorem splitSegs_ne_nil (x : Str) : splitSegs x ≠ [] := by
  cases x with
  | nil => simp [splitSegs]
  | cons c t =>
    by_cases hc : c = '/'
    · subst hc
      simp [splitSegs]
    · rw [show splitSegs (c :: t) = (match splitSegs t with
        | [] => [[c]]
        | s :: ss => (c :: s) :: ss) from by rw [splitSegs]; exact fun h => hc h]
      cases splitSegs t <;> simp

theorem splitSegs_cons_ne_slash {c : Char} (t : Str) (hc : ¬ (c = '/')) :
    splitSegs (c :: t) = (c :: (splitSegs t).head!) :: (splitSegs t).tail := by
  rw [show splitSegs (c :: t) = (match splitSegs t with
      | [] => [[c]]
      | s :: ss => (c :: s) :: ss) from by rw [splitSegs]; exact fun h => hc h]
  cases hs : splitSegs t with
  | nil => exact absurd hs (splitSegs_ne_nil t)
  | cons s ss => simp

theorem joinSegs_splitSegs (x : Str) : joinSegs (splitSegs x) = x := by
  induction x with
  | nil => rfl
  | cons c t ih =>
    by_cases hc : c = '/'
    · subst hc
      rw [show splitSegs ('/' :: t) = [] :: splitSegs t from rfl]
      cases hs : splitSegs t with
      | nil => exact absurd hs (splitSegs_ne_nil t)
      | cons s ss =>
        rw [show joinSegs ([] :: s :: ss) = '/' :: joinSegs (s :: ss) from rfl]
        rw [hs] at ih
        rw [ih]
    · rw [splitSegs_cons_ne_slash t hc]
      cases hs : splitSegs t with
      | nil => exact absurd hs (splitSegs_ne_nil t)
      | cons s ss =>
        rw [hs] at ih
        simp only [List.head!_cons, List.tail_cons]
        cases ss with
        | nil =>
          have hst : s = t := ih
          rw [show joinSegs [c :: s] = c :: s from rfl, hst]
        | cons s2 ss2 =>
          rw [show joinSegs ((c :: s) :: s2 :: ss2) =
            (c :: s) ++ '/' :: joinSegs (s2 :: ss2) from rfl]
          rw [show joinSegs (s :: s2 :: ss2) =
            s ++ '/' :: joinSegs (s2 :: ss2) from rfl] at ih
          rw [← ih]
          simp

theorem splitSegs_append_slash (x y : Str) :
    splitSegs (x ++ '/' :: y) = splitSegs x ++ splitSegs y := by
  induction x with
  | nil =>
    rw [List.nil_append]
    rfl
  | cons c t ih =>
    by_cases hc : c = '/'
    · subst hc
      rw [List.cons_append]
      rw [show splitSegs ('/' :: (t ++ '/' :: y)) = [] :: splitSegs (t ++ '/' :: y) from rfl]
      rw [show splitSegs ('/' :: t) = [] :: splitSegs t from rfl]
      rw [ih]
      rfl
    · rw [List.cons_append, splitSegs_cons_ne_slash _ hc, splitSegs_cons_ne_slash t hc, ih]
      cases hs : splitSegs t with
      | nil => exact absurd hs (splitSegs_ne_nil t)
      | cons s ss => simp

theorem splitSegs_noSlash {n : Str} (h : n.all (fun c => ¬ (c = '/')) = true) :
    splitSegs n = [n] := by
  induction n with
  | nil => rfl
  | cons c t ih =>
    rw [List.all_cons, Bool.and_eq_true] at h
    have hc : ¬ (c = '/') := by simpa using h.1
    rw [splitSegs_cons_ne_slash t hc, ih h.2]
    simp

theorem resolveDots_no_dots (isAbs : Bool) (segs : List Str)
    (h : ∀ s ∈ segs, s ≠ "..".data) :
    ∀ acc, resolveDots isAbs acc segs = acc.reverse ++ segs := by
  induction segs with
  | nil => intro acc; simp [resolveDots]
  | cons s rest ih =>
    intro acc
    have hs : ¬ (s = "..".data) := h s (by simp)
    rw [resolveDots.eq_def]
    simp only []
    rw [if_neg hs]
    rw [ih (fun x hx => h x (by simp [hx])) (s :: acc)]
    simp

theorem joinSegs_append (xs ys : List Str) (hx : xs ≠ []) (hy : ys ≠ []) :
    joinSegs (xs ++ ys) = joinSegs xs ++ '/' :: joinSegs ys := by
  induction xs with
  | nil => exact absurd rfl hx
  | cons s rest ih =>
    cases rest with
    | nil =>
      cases ys with
      | nil => exact absurd rfl hy
      | cons y yt =>
        rw [show ([s] : List Str) ++ y :: yt = s :: y :: yt from rfl]
        rw [show joinSegs (s :: y :: yt) = s ++ '/' :: joinSegs (y :: yt) from rfl]
        rfl
    | cons s2 rest2 =>
      rw [show (s :: s2 :: rest2) ++ ys = s :: ((s2 :: rest2) ++ ys) from rfl]
      have hne : (s2 :: rest2) ++ ys ≠ [] := by simp
      cases hcc : (s2 :: rest2) ++ ys with
      | nil => exact absurd hcc hne
      | cons z zt =>
        rw [show joinSegs (s :: z :: zt) = s ++ '/' :: joinSegs (z :: zt) from rfl]
        rw [← hcc, ih (by simp)]
        rw [show joinSegs (s :: s2 :: rest2) = s ++ '/' :: joinSegs (s2 :: rest2) from rfl]
        simp

theorem head_slash_of_normalRoot {root : Str} {rs : List Str}
    (h : splitSegs root = [] :: rs) (hne : rs ≠ []) : ∃ t, root = '/' :: t := by
  cases root with
  | nil =>
    rw [show splitSegs [] = [[]] from rfl] at h
    cases h
    exact absurd rfl hne
  | cons c t =>
    by_cases hc : c = '/'
    · exact ⟨t, by rw [hc]⟩
    · rw [splitSegs_cons_ne_slash t hc] at h
      cases h

theorem wfSeg_props {n : Str} (h : wfSeg n = true) :
    n ≠ [] ∧ n.all (fun c => ¬ (c = '/')) = true ∧ n ≠ ".".data ∧ n ≠ "..".data := by
  simp only [wfSeg, Bool.and_eq_true, decide_eq_true_eq] at h
  exact ⟨h.1.1.1, h.1.1.2, h.1.2, h.2⟩

theorem filter_wf_segs {segs : List Str} (h : segs.all wfSeg = true) :
    segs.filter (fun t => decide (¬ (t = []) ∧ ¬ (t = ".".data))) = segs := by
  rw [List.filter_eq_self]
  intro a ha
  rw [List.all_eq_true] at h
  obtain ⟨h1, _, h3, _⟩ := wfSeg_props (h a ha)
  simp [h1, h3]

theorem resolveDots_wf (isAbs : Bool) {segs : List Str} (h : segs.all wfSeg = true) :
    resolveDots isAbs [] segs = segs := by
  have := resolveDots_no_dots isAbs segs (fun s hs => by
    rw [List.all_eq_true] at h
    exact (wfSeg_props (h s hs)).2.2.2) []
  simpa using this

theorem pnorm_abs {x : Str} {rs : List Str} (hsplit : splitSegs x = [] :: rs)
    (hne : rs ≠ []) (hwf : rs.all wfSeg = true) : pnorm x = x := by
  obtain ⟨t, rfl⟩ := head_slash_of_normalRoot hsplit hne
  have hrs : rs = splitSegs t := by
    have h2 : ([] : Str) :: splitSegs t = [] :: rs := hsplit
    injection h2 with h2a h2b
    exact h2b.symm
  simp only [pnorm, hsplit]
  rw [if_pos (show ('/' :: t).head? = some '/' from rfl)]
  rw [List.filter_cons]
  rw [show (decide (¬ ([] : Str) = [] ∧ ¬ ([] : Str) = ['.'])) = false from by decide]
  rw [if_neg (by simp)]
  have hfil : List.filter (fun t => decide (¬ t = [] ∧ ¬ t = ['.'])) rs = rs := by
    rw [List.filter_eq_self]
    intro a ha
    rw [List.all_eq_true] at hwf
    obtain ⟨h1, _, h3, _⟩ := wfSeg_props (hwf a ha)
    simp only [decide_eq_true_eq]
    exact ⟨h1, fun hh => h3 hh⟩
  rw [hfil]
  rw [resolveDots_wf _ hwf]
  have hjoin : joinSegs rs = t := by
    rw [hrs, joinSegs_splitSegs]
  rw [hjoin]

theorem pnorm_rel {x : Str} (hwf : (splitSegs x).all wfSeg = true) (hne : x ≠ []) :
    pnorm x = x := by
  have hnoslash : ¬ (x.head? = some '/') := by
    intro hh
    cases x with
    | nil => simp at hh
    | cons c t =>
      simp only [List.head?_cons, Option.some.injEq] at hh
      subst hh
      rw [show splitSegs ('/' :: t) = [] :: splitSegs t from rfl] at hwf
      rw [List.all_cons, Bool.and_eq_true] at hwf
      exact absurd (wfSeg_props hwf.1).1 (by simp)
  simp only [pnorm]
  rw [filter_wf_segs hwf, resolveDots_wf _ hwf, joinSegs_splitSegs]
  rw [if_neg hnoslash, if_neg hne]

theorem pjoin_abs {root : Str} (rel : Str) (hroot : normalRootB root = true)
    (hrel : (splitSegs rel).all wfSeg = true) (hrelne : rel ≠ []) :
    pjoin root rel = root ++ '/' :: rel := by
  unfold normalRootB at hroot
  cases hsplit : splitSegs root with
  | nil => exact absurd hsplit (splitSegs_ne_nil root)
  | cons s rs =>
    rw [hsplit] at hroot
    cases s with
    | cons a b => simp at hroot
    | nil =>
      rw [Bool.and_eq_true] at hroot
      have hne : rs ≠ [] := by
        have := hroot.1
        simp only [Bool.not_eq_true'] at this
        exact fun hh => by rw [hh] at this; simp at this
      have hwf := hroot.2
      obtain ⟨t, rfl⟩ := head_slash_of_normalRoot hsplit hne
      unfold pjoin
      rw [if_neg (by simp), if_neg (by simp)]
      rw [if_neg hrelne]
      apply @pnorm_abs _ (rs ++ splitSegs rel)
      · rw [show ('/' :: t) ++ '/' :: rel = ('/' :: t) ++ '/' :: rel from rfl,
          splitSegs_append_slash, hsplit]
        rfl
      · simp [hne]
      · rw [List.all_append]
        rw [hwf, hrel]
        rfl

theorem pjoin_rel {a b : Str} (ha : (splitSegs a).all wfSeg = true)
    (hb : (splitSegs b).all wfSeg = true) (hane : a ≠ []) (hbne : b ≠ []) :
    pjoin a b = a ++ '/' :: b := by
  unfold pjoin
  rw [if_neg (by simp [hane]), if_neg hane, if_neg hbne]
  apply pnorm_rel
  · rw [splitSegs_append_slash, List.all_append, ha, hb]
    rfl
  · simp [hane]

/-! ## Theme-manager helpers (src/src/utils/theme-manager/index.ts) -/

/-- `THEME_LABEL_PREFIX`: `"sh1ffy • "`. -/
def THEME_LABEL_PREFIX : Str := "sh1ffy • ".data

/-- `THEMES_DIR_RELATIVE`. -/
def THEMES_DIR_RELATIVE : Str := "themes".data

/-- `SH1FFY_THEME_TAG`. -/
def SH1FFY_THEME_TAG : Str := "sh1ffy-managed".data

/-- JS `String.prototype.trim`. -/
def jsTrim (l : Str) : Str :=
  ((l.dropWhile isJsWS).reverse.dropWhile isJsWS).reverse

/-- `s.replace(/\.[^.]+$/, "")`: strip a final dot-extension when one
exists (at least one non-dot character after the last dot). -/
def stripExtRegex (n : Str) : Str :=
  match subIdx ['.'] n.reverse with
  | none => n
  | some k => if k = 0 then n else n.take (n.length - 1 - k)

/-- Node `path.extname` for a base name: the suffix from the last `.` that
is not the leading character (with the `..` special case). -/
def extnameOf (n : Str) : Str :=
  if n = "..".data then []
  else
    match subIdx ['.'] n.reverse with
    | none => []
    | some k => if k = n.length - 1 then [] else n.drop (n.length - 1 - k)

/-- `isAlnumLower c`: `[a-z0-9]`. -/
def isAlnumLower (c : Char) : Bool :=
  ('a' ≤ c ∧ c ≤ 'z') ∨ ('0' ≤ c ∧ c ≤ '9')

/-- `replace(/[^a-z0-9]+/g, "-")`: each maximal run of other characters
becomes a single dash.  `inRun` records whether the previous character was
part of such a run. -/
def collapseRuns : Str → Bool → Str
  | [], _ => []
  | c :: t, inRun =>
    if isAlnumLower c then c :: collapseRuns t false
    else if inRun then collapseRuns t true
    else '-' :: collapseRuns t true

/-- Strip leading and trailing dashes (`replace(/^-+|-+$/g, "")`). -/
def trimDashes (l : Str) : Str :=
  ((l.dropWhile (fun c => c = '-')).reverse.dropWhile (fun c => c = '-')).reverse

/-- Embedding of `toSafeId`. -/
def toSafeId (input : Str) : Str :=
  trimDashes (collapseRuns (input.map Char.toLower) false)

/-- `{ ...x }` for the values that reach it in the import loop (objects, and
arrays, which spread to index-keyed objects). -/
def spreadToObj : Json → List (Str × Json)
  | Json.obj fs => fs
  | Json.arr xs => xs.enum.map (fun p => ((Nat.repr p.1).data, p.2))
  | _ => []

/-- Embedding of `normalizeThemeObject`. -/
def normalizeThemeObject (themeObject : Json) (fileName : Str) : Json :=
  let clone := spreadToObj themeObject
  let baseNameFromFile := stripExtRegex fileName
  let originalName : Str :=
    match lookupField clone "name".data with
    | some (Json.str s) => if jsTrim s ≠ [] then s else baseNameFromFile
    | _ => baseNameFromFile
  let prefixedName :=
    if begins THEME_LABEL_PREFIX originalName then originalName
    else THEME_LABEL_PREFIX ++ originalName
  let clone1 := setAssoc clone "name".data (Json.str prefixedName)
  let typeTruthy :=
    match lookupField clone1 "type".data with
    | some v => truthy v
    | none => false
  let uiThemeTruthy :=
    match lookupField clone1 "uiTheme".data with
    | some v => truthy v
    | none => false
  if !typeTruthy && !uiThemeTruthy then
    Json.obj (setAssoc clone1 "type".data (Json.str "dark".data))
  else Json.obj clone1

/-- A `Sh1ffyThemeEntry`. -/
structure ThemeEntry where
  id : Str
  label : Str
  uiTheme : Str
  typeLabel : Str
  path : Str
deriving DecidableEq

/-- `uiTheme`/`typeLabel` from the declared theme type; `none` when
`type.toLowerCase()` would throw because `obj.type ?? "dark"` produced a
non-string that is not nullish. -/
def classifyType : Option Json → Option (Str × Str)
  | none => some ("vs-dark".data, "Dark".data)
  | some Json.null => some ("vs-dark".data, "Dark".data)
  | some (Json.str s) =>
    let t := s.map Char.toLower
    if t = "light".data ∨ t = "vs".data then some ("vs".data, "Light".data)
    else if t = "hc".data ∨ t = "hc-black".data ∨ t = "high-contrast".data then
      some ("hc-black".data, "High Contrast".data)
    else some ("vs-dark".data, "Dark".data)
  | some _ => none

/-- The entry `readImportedThemesFromDisk` builds for one `.json` file,
`none` when reading throws (content `null`, or an unusable `type`). -/
def readThemeEntry (fileName : Str) (content : Json) : Option ThemeEntry :=
  match content with
  | Json.null => none
  | j =>
    let label : Str :=
      match j.getField "name".data with
      | some (Json.str s) => if jsTrim s ≠ [] then s else stripExtRegex fileName
      | _ => stripExtRegex fileName
    match classifyType (j.getField "type".data) with
    | none => none
    | some p =>
      some { id := "sh1ffy.".data ++ toSafeId label, label := label,
             uiTheme := p.1, typeLabel := p.2,
             path := pjoin THEMES_DIR_RELATIVE fileName }

/-- Embedding of `readImportedThemesFromDisk` over the modelled themes
directory (file name → parsed content, in directory order); only `.json`
files are considered and unreadable ones are skipped. -/
def readImportedThemesFromDisk (dir : List (Str × Json)) : List ThemeEntry :=
  (dir.filter (fun f => begins ".json".data.reverse f.1.reverse)).filterMap
    (fun f => readThemeEntry f.1 f.2)

/-- Modelled file-system and configuration state of the extension host.
Theme files hold parsed JSON contents (serialisation is the identity of the
model); `others` are all files outside workbench.html, package.json, its
backup, and the themes directory. -/
structure ExtState where
  root : Str
  themesDir : List (Str × Json)
  pkg : Json
  backup : Option Json
  workbenchHtml : Str
  fontConfig : Option Str
  others : List (Str × Str)

/-- Embedding of `writePackageJson`: writes the new content, creating the
backup copy of the previous content the first time. -/
def writePackageJson (s : ExtState) (newPkg : Json) : ExtState :=
  { s with pkg := newPkg, backup := some (s.backup.getD s.pkg) }

/-- The contributes.themes entry generated for one theme on disk. -/
def themeEntryJson (t : ThemeEntry) : Json :=
  Json.obj [(("id".data), Json.str t.id), (("label".data), Json.str t.label),
            (("uiTheme".data), Json.str t.uiTheme),
            (("path".data), Json.str (("./".data) ++ t.path)),
            (("_sh1ffyTag".data), Json.str SH1FFY_THEME_TAG)]

/-- `entry && entry._sh1ffyTag !== SH1FFY_THEME_TAG`. -/
def keepEntry (e : Json) : Bool :=
  truthy e && !(isStrVal (e.getField ("_sh1ffyTag".data)) SH1FFY_THEME_TAG)

/-- Truthiness of an optional (possibly `undefined`) value. -/
def truthyOpt : Option Json → Bool
  | some v => truthy v
  | none => false

/-- Embedding of the package.json transformation of `syncPackageJsonThemes`;
`none` models a thrown TypeError (strict-mode assignment on a non-object, or
reading a property of `null`). -/
def syncPkgJson (themesOnDisk : List ThemeEntry) (pkg : Json) : Option Json := do
  let c0 ← match pkg with
    | Json.null => none
    | p => some (p.getField ("contributes".data))
  let pkg1 ← if truthyOpt c0 then pure pkg
    else jsSetField pkg ("contributes".data) (Json.obj [])
  let c1 := (pkg1.getField ("contributes".data)).getD Json.null
  let th := c1.getField ("themes".data)
  let p2arr ← match th with
    | some (Json.arr xs) => some (pkg1, xs)
    | _ => do
      let c2 ← jsSetField c1 ("themes".data) (Json.arr [])
      let p2 ← jsSetField pkg1 ("contributes".data) c2
      pure (p2, ([] : List Json))
  let filtered := p2arr.2.filter keepEntry
  let newThemes := filtered ++ themesOnDisk.map themeEntryJson
  let cF := (p2arr.1.getField ("contributes".data)).getD Json.null
  let c3 ← jsSetField cF ("themes".data) (Json.arr newThemes)
  jsSetField p2arr.1 ("contributes".data) c3

/-- `syncPackageJsonThemes` including the write-back; a thrown error leaves
every file untouched. -/
def syncPackageJsonThemes (s : ExtState) : ExtState :=
  match syncPkgJson (readImportedThemesFromDisk s.themesDir) s.pkg with
  | some p' => writePackageJson s p'
  | none => s

/-- One file selected in the import dialog: base name, result of
`JSON.parse(stripJsonComments(content))` (`none` models a parse error), and
the user's answer to the duplicate-overwrite prompt, should it appear. -/
structure ImportFile where
  name : Str
  parsed : Option Json
  overwrite : Bool

/-- `!themeObject || typeof themeObject !== "object"` fails exactly for
objects and arrays. -/
def isJsObject : Json → Bool
  | Json.obj _ => true
  | Json.arr _ => true
  | _ => false

/-- Final file name: a (case-insensitive) `.json` extension keeps the
original name, everything else is renamed to `<base>.json`. -/
def targetFileNameOf (originalFileName : Str) : Str :=
  if (extnameOf originalFileName).map Char.toLower = (".json".data) then originalFileName
  else stripExtRegex originalFileName ++ (".json".data)

/-- The loop body of `handleImportThemes` for one file, up to the file
write: `some (targetFileName, normalized)` when the file gets written,
`none` when an error is caught or the duplicate prompt is declined.
`normalizeThemeObject` always stores a string name, so the label read-back
is that string. -/
def importOne (existing : List ThemeEntry) (f : ImportFile) : Option (Str × Json) :=
  match f.parsed with
  | none => none
  | some themeObject =>
    if !isJsObject themeObject then none
    else
      let normalized := normalizeThemeObject themeObject f.name
      let label : Str :=
        match normalized.getField ("name".data) with
        | some (Json.str s) => s
        | _ => stripExtRegex f.name
      if (existing.any (fun t => t.label = label)) && !f.overwrite then none
      else some (targetFileNameOf f.name, normalized)

/-- `fs.writeFileSync` into the themes directory: replace in place or append
(a new file shows up at the end of the modelled listing). -/
def writeThemeFile (dir : List (Str × Json)) (name : Str) (content : Json) :
    List (Str × Json) :=
  match dir with
  | [] => [(name, content)]
  | (k, v) :: rest =>
    if k = name then (k, content) :: rest
    else (k, v) :: writeThemeFile rest name content

/-- Embedding of `handleImportThemes` (the open dialog returns `files`;
empty means cancelled). -/
def handleImportThemes (s : ExtState) (files : List ImportFile) : ExtState :=
  if files.isEmpty then s
  else
    let existing := readImportedThemesFromDisk s.themesDir
    let dir' := files.foldl (fun d f =>
      match importOne existing f with
      | some t => writeThemeFile d t.1 t.2
      | none => d) s.themesDir
    syncPackageJsonThemes { s with themesDir := dir' }

/-- `fs.existsSync` on an absolute path, over the modelled state. -/
def existsFile (s : ExtState) (p : Str) : Bool :=
  s.themesDir.any (fun f => s.root ++ '/' :: THEMES_DIR_RELATIVE ++ '/' :: f.1 = p) ||
  s.others.any (fun f => f.1 = p)

/-- `fs.unlinkSync` on an absolute path. -/
def unlinkFile (s : ExtState) (p : Str) : ExtState :=
  { s with
    themesDir := s.themesDir.filter
      (fun f => ¬ (s.root ++ '/' :: THEMES_DIR_RELATIVE ++ '/' :: f.1 = p)),
    others := s.others.filter (fun f => ¬ (f.1 = p)) }

/-- The deletion loop of `handleRemoveThemes` (lines 286-298): join the
extension root with each pick's stored relative path and unlink when the
result starts with the themes directory path and the file exists. -/
def removeThemesLoop (root : Str) (picks : List ThemeEntry) (s : ExtState) : ExtState :=
  picks.foldl (fun st pick =>
    if begins (pjoin root THEMES_DIR_RELATIVE) (pjoin root pick.path) &&
        existsFile st (pjoin root pick.path) then
      unlinkFile st (pjoin root pick.path)
    else st) s

/-- Embedding of `handleRemoveThemes`: the QuickPick selection is a list of
indices into the displayed theme list (`none` when dismissed), followed by
the modal confirmation. -/
def handleRemoveThemes (s : ExtState) (sel : Option (List Nat))
    (confirmation : Option Str) : ExtState :=
  let themes := readImportedThemesFromDisk s.themesDir
  if themes.isEmpty then s
  else
    match sel with
    | none => s
    | some idxs =>
      let picks := idxs.filterMap (fun i => themes[i]?)
      if picks.isEmpty then s
      else if ¬ (confirmation = some ("Remove".data)) then s
      else syncPackageJsonThemes (removeThemesLoop s.root picks s)

/-- `handleListThemes` only shows a QuickPick. -/
def handleListThemes (s : ExtState) : ExtState := s

/-- Embedding of `handleRepairContributions`. -/
def handleRepairContributions (s : ExtState) : ExtState :=
  syncPackageJsonThemes s

/-- Embedding of `handleRestorePackageJsonBackup`. -/
def handleRestorePackageJsonBackup (s : ExtState) (confirmation : Option Str) :
    ExtState :=
  match s.backup with
  | none => s
  | some b =>
    if ¬ (confirmation = some ("Restore".data)) then s
    else { s with pkg := b }

/-- Embedding of `handleEnableCustomFont` at the state level (follow-up
prompts dispatch separate actions). -/
def handleEnableCustomFontState (s : ExtState) : ExtState :=
  match s.fontConfig with
  | none => s
  | some font =>
    if containsSub STYLE_TAG_OPEN s.workbenchHtml then s
    else { s with workbenchHtml := injectStyle s.workbenchHtml (getStyleMarkup font) }

/-- Embedding of `handleDisableCustomFont`. -/
def handleDisableCustomFont (s : ExtState) : ExtState :=
  if containsSub STYLE_TAG_OPEN s.workbenchHtml then
    { s with workbenchHtml := removeStyle s.workbenchHtml }
  else s

/-- Embedding of `handleReloadFontConfiguration`. -/
def handleReloadFontConfiguration (s : ExtState) : ExtState :=
  match s.fontConfig with
  | none => s
  | some font =>
    let html := if containsSub STYLE_TAG_OPEN s.workbenchHtml then
        removeStyle s.workbenchHtml
      else s.workbenchHtml
    { s with workbenchHtml := injectStyle html (getStyleMarkup font) }

/-- Embedding of `handleResetToDefaults`. -/
def handleResetToDefaults (s : ExtState) (confirmation : Option Str) : ExtState :=
  if ¬ (confirmation = some ("Reset".data)) then s
  else
    let s1 := { s with fontConfig := none }
    if containsSub STYLE_TAG_OPEN s1.workbenchHtml then
      { s1 with workbenchHtml := removeStyle s1.workbenchHtml }
    else s1

/-- Embedding of `handleSetCustomFont` (the input box value; follow-up
enable/reload prompts dispatch separate actions). -/
def handleSetCustomFont (s : ExtState) (input : Option Str) : ExtState :=
  match input with
  | none => s
  | some value =>
    if jsTrim value = [] then s
    else { s with fontConfig := some (jsTrim value) }

/-- One invocation of a Sh1ffy menu handler, with the user inputs it reads. -/
inductive SfAction where
  | importThemes (files : List ImportFile)
  | removeThemes (sel : Option (List Nat)) (confirmation : Option Str)
  | listThemes
  | repairContributions
  | restorePackageJsonBackup (confirmation : Option Str)
  | setFont (input : Option Str)
  | enableFont
  | disableFont
  | reloadFontConfiguration
  | resetToDefaults (confirmation : Option Str)

/-- The effect of one handler invocation on the modelled state. -/
def step : SfAction → ExtState → ExtState
  | SfAction.importThemes files, s => handleImportThemes s files
  | SfAction.removeThemes sel conf, s => handleRemoveThemes s sel conf
  | SfAction.listThemes, s => handleListThemes s
  | SfAction.repairContributions, s => handleRepairContributions s
  | SfAction.restorePackageJsonBackup conf, s => handleRestorePackageJsonBackup s conf
  | SfAction.setFont input, s => handleSetCustomFont s input
  | SfAction.enableFont, s => handleEnableCustomFontState s
  | SfAction.disableFont, s => handleDisableCustomFont s
  | SfAction.reloadFontConfiguration, s => handleReloadFontConfiguration s
  | SfAction.resetToDefaults conf, s => handleResetToDefaults s conf

/-! ## Helper lemmas on the JSON object operations -/

theorem lookup_setAssoc_self (fs : List (Str × Json)) (k : Str) (v : Json) :
    lookupField (setAssoc fs k v) k = some v := by
  induction fs with
  | nil => simp [setAssoc, lookupField]
  | cons f rest ih =>
    obtain ⟨k1, v1⟩ := f
    by_cases hk : k1 = k
    · simp [setAssoc, hk, lookupField]
    · simp [setAssoc, hk, lookupField, ih]

theorem setAssoc_setAssoc (fs : List (Str × Json)) (k : Str) (v w : Json) :
    setAssoc (setAssoc fs k v) k w = setAssoc fs k w := by
  induction fs with
  | nil => simp [setAssoc]
  | cons f rest ih =>
    obtain ⟨k1, v1⟩ := f
    by_cases hk : k1 = k
    · simp [setAssoc, hk]
    · simp [setAssoc, hk, ih]

theorem lookup_writeThemeFile (dir : List (Str × Json)) (n : Str) (c : Json) :
    lookupField (writeThemeFile dir n c) n = some c := by
  induction dir with
  | nil => simp [writeThemeFile, lookupField]
  | cons f rest ih =>
    obtain ⟨k1, v1⟩ := f
    by_cases hk : k1 = n
    · simp [writeThemeFile, hk, lookupField]
    · simp [writeThemeFile, hk, lookupField, ih]

theorem mem_writeThemeFile (dir : List (Str × Json)) (n : Str) (c : Json) :
    (n, c) ∈ writeThemeFile dir n c := by
  induction dir with
  | nil => simp [writeThemeFile]
  | cons f rest ih =>
    obtain ⟨k1, v1⟩ := f
    by_cases hk : k1 = n
    · subst hk
      simp [writeThemeFile]
    · simp only [writeThemeFile, if_neg hk, List.mem_cons]
      exact Or.inr ih

theorem keepEntry_themeEntryJson (t : ThemeEntry) :
    keepEntry (themeEntryJson t) = false := by
  simp [keepEntry, themeEntryJson, Json.getField, lookupField, isStrVal, truthy]

/-- C6: `handleRemoveThemes` changes no file unless the modal dialog is
answered `Remove`, and `handleRestorePackageJsonBackup` changes no file
unless it is answered `Restore`; a dismissed dialog or any other answer
leaves the state unchanged. -/
theorem confirmation_gating :
    ∀ (s : ExtState) (sel : Option (List Nat)) (confR confB : Option Str),
      (¬ (confR = some ("Remove".data)) → handleRemoveThemes s sel confR = s) ∧
      (¬ (confB = some ("Restore".data)) → handleRestorePackageJsonBackup s confB = s) := by
  intro s sel confR confB
  constructor
  · intro h
    unfold handleRemoveThemes
    by_cases h1 : (readImportedThemesFromDisk s.themesDir).isEmpty
    · simp [h1]
    · cases sel with
      | none => simp [h1]
      | some idxs =>
        by_cases h2 : (idxs.filterMap
            (fun i => (readImportedThemesFromDisk s.themesDir)[i]?)).isEmpty
        · simp [h1, h2]
        · simp [h1, h2, h]
  · intro h
    unfold handleRestorePackageJsonBackup
    cases s.backup with
    | none => rfl
    | some b => simp [h]

/-- Witness for C6: a dismissed removal dialog and a `Cancel` answer to the
restore dialog both leave the state unchanged. -/
theorem confirmation_gating_witness :
    ¬ ((none : Option Str) = some ("Remove".data)) ∧
    ¬ (some ("Cancel".data) = some ("Restore".data)) ∧
    handleRemoveThemes
      { root := "/ext".data, themesDir := [(("a.json".data), Json.obj [])],
        pkg := Json.obj [], backup := none, workbenchHtml := [],
        fontConfig := none, others := [] } (some [0]) none =
      { root := "/ext".data, themesDir := [(("a.json".data), Json.obj [])],
        pkg := Json.obj [], backup := none, workbenchHtml := [],
        fontConfig := none, others := [] } ∧
    handleRestorePackageJsonBackup
      { root := "/ext".data, themesDir := [], pkg := Json.obj [],
        backup := some (Json.obj []), workbenchHtml := [],
        fontConfig := none, others := [] } (some ("Cancel".data)) =
      { root := "/ext".data, themesDir := [], pkg := Json.obj [],
        backup := some (Json.obj []), workbenchHtml := [],
        fontConfig := none, others := [] } := by
  refine ⟨by simp, by simp, ?_, ?_⟩
  · exact (confirmation_gating _ (some [0]) none (some ("Cancel".data))).1 (by simp)
  · exact (confirmation_gating _ none none (some ("Cancel".data))).2 (by simp)

/-- A concrete starting state for the backup counterexample: empty manifest,
no backup yet. -/
def c8State : ExtState :=
  { root := "/ext".data, themesDir := [], pkg := Json.obj [], backup := none,
    workbenchHtml := [], fontConfig := none, others := [] }

/-- C8 counterexample: `sh1ffy: Repair Theme Contributions` on a state with
no backup file writes `package.json.sh1ffy.bak` with the previous manifest
content — an operation that keeps a backup copy of a file it mutates — and
`handleRestorePackageJsonBackup` then restores package.json to that earlier
state, refuting `no operation keeps a backup ... no operation restores`. -/
theorem backup_counterexample :
    c8State.backup = none ∧
    (step SfAction.repairContributions c8State).backup = some (Json.obj []) ∧
    (step (SfAction.restorePackageJsonBackup (some ("Restore".data)))
        { c8State with pkg := Json.num 1, backup := some (Json.obj []) }).pkg =
      Json.obj [] := by
  refine ⟨rfl, ?_, ?_⟩ <;> rfl

/-- C8 (amended): package.json does have a failure-recovery story beyond an
error message: `writePackageJson` writes a backup of the previous content the
first time it runs and keeps the original backup on later runs, and
`handleRestorePackageJsonBackup` restores package.json from it on a
`Restore` answer; the font handlers never touch the backup. -/
theorem backup_semantics :
    ∀ (s : ExtState) (p b : Json) (conf : Option Str),
      (s.backup = none →
        (writePackageJson s p).pkg = p ∧ (writePackageJson s p).backup = some s.pkg) ∧
      (s.backup = some b →
        (writePackageJson s p).pkg = p ∧ (writePackageJson s p).backup = some b) ∧
      (s.backup = some b →
        handleRestorePackageJsonBackup s (some ("Restore".data)) = { s with pkg := b }) ∧
      ((step SfAction.enableFont s).backup = s.backup ∧
       (step SfAction.disableFont s).backup = s.backup ∧
       (step SfAction.reloadFontConfiguration s).backup = s.backup ∧
       (step (SfAction.resetToDefaults conf) s).backup = s.backup) := by
  intro s p b conf
  refine ⟨fun h => ⟨rfl, ?_⟩, fun h => ⟨rfl, ?_⟩, fun h => ?_, ?_, ?_, ?_, ?_⟩
  · simp [writePackageJson, h]
  · simp [writePackageJson, h]
  · simp [handleRestorePackageJsonBackup, h]
  · show (handleEnableCustomFontState s).backup = s.backup
    unfold handleEnableCustomFontState
    cases s.fontConfig with
    | none => rfl
    | some font =>
      by_cases hc : containsSub STYLE_TAG_OPEN s.workbenchHtml <;> simp [hc]
  · show (handleDisableCustomFont s).backup = s.backup
    unfold handleDisableCustomFont
    by_cases hc : containsSub STYLE_TAG_OPEN s.workbenchHtml <;> simp [hc]
  · show (handleReloadFontConfiguration s).backup = s.backup
    unfold handleReloadFontConfiguration
    cases s.fontConfig with
    | none => rfl
    | some font => rfl
  · show (handleResetToDefaults s conf).backup = s.backup
    unfold handleResetToDefaults
    by_cases hc : conf = some ("Reset".data)
    · subst hc
      by_cases hw : containsSub STYLE_TAG_OPEN s.workbenchHtml <;> simp [hw]
    · simp [hc]

/-- Witness for C8: the backup semantics at a concrete state with no
existing backup, then with one. -/
theorem backup_semantics_witness :
    ((⟨"/e".data, [], Json.num 7, none, [], none, []⟩ : ExtState).backup = none ∧
      (writePackageJson ⟨"/e".data, [], Json.num 7, none, [], none, []⟩
        (Json.num 8)).backup = some (Json.num 7)) ∧
    ((⟨"/e".data, [], Json.num 9, some (Json.num 7), [], none, []⟩ : ExtState).backup =
        some (Json.num 7) ∧
      handleRestorePackageJsonBackup
        ⟨"/e".data, [], Json.num 9, some (Json.num 7), [], none, []⟩
        (some ("Restore".data)) =
      { (⟨"/e".data, [], Json.num 9, some (Json.num 7), [], none, []⟩ : ExtState) with
          pkg := Json.num 7 }) := by
  refine ⟨⟨rfl, ?_⟩, ⟨rfl, ?_⟩⟩
  · exact ((backup_semantics ⟨"/e".data, [], Json.num 7, none, [], none, []⟩
      (Json.num 8) Json.null none).1 rfl).2
  · exact ((backup_semantics ⟨"/e".data, [], Json.num 9, some (Json.num 7), [], none, []⟩
      (Json.num 8) (Json.num 7) none).2.2.1 rfl)

theorem any_filter_eq {α} (l : List α) (p q : α → Bool)
    (h : ∀ a, p a = true → q a = true) : (l.filter q).any p = l.any p := by
  induction l with
  | nil => rfl
  | cons x xs ih =>
    cases hq : q x with
    | true => simp [List.filter_cons, hq, ih]
    | false =>
      have hp : p x = false := by
        cases hpx : p x
        · rfl
        · rw [h x hpx] at hq
          cases hq
      simp [List.filter_cons, hq, hp, ih]

theorem exists_unlink_ne (s : ExtState) (q p : Str) (h : ¬ (p = q)) :
    existsFile (unlinkFile s q) p = existsFile s p := by
  unfold existsFile unlinkFile
  simp only []
  have h1 := any_filter_eq s.themesDir
    (fun f => decide (s.root ++ '/' :: THEMES_DIR_RELATIVE ++ '/' :: f.1 = p))
    (fun f => decide (¬ (s.root ++ '/' :: THEMES_DIR_RELATIVE ++ '/' :: f.1 = q)))
    (by
      intro a ha
      simp only [decide_eq_true_eq] at ha ⊢
      rw [ha]
      exact h)
  have h2 := any_filter_eq s.others
    (fun f => decide (f.1 = p)) (fun f => decide (¬ (f.1 = q)))
    (by
      intro a ha
      simp only [decide_eq_true_eq] at ha ⊢
      rw [ha]
      exact h)
  rw [h1, h2]

/-- C9 (amended): the removal loop of `handleRemoveThemes` unlinks only
files whose absolute path — the extension root joined with the entry's
stored relative path — starts with the themes directory path as a string
prefix: every file that existed before the loop and is gone afterwards has
that prefix.  (The stronger reading `no file outside the themes directory
is ever deleted, for any stored path value` is refuted by the
counterexample: a sibling such as `<root>/themesx.json` also starts with
`<root>/themes`.) -/
theorem removeThemes_prefix_amended :
    ∀ (root : Str) (picks : List ThemeEntry) (s : ExtState) (p : Str),
      existsFile s p = true →
      existsFile (removeThemesLoop root picks s) p = false →
      begins (pjoin root THEMES_DIR_RELATIVE) p = true := by
  intro root picks
  induction picks with
  | nil =>
    intro s p h1 h2
    rw [show removeThemesLoop root [] s = s from rfl] at h2
    simp [h1] at h2
  | cons pick rest ih =>
    intro s p h1 h2
    rw [show removeThemesLoop root (pick :: rest) s =
        removeThemesLoop root rest
          (if begins (pjoin root THEMES_DIR_RELATIVE) (pjoin root pick.path) &&
              existsFile s (pjoin root pick.path) then
            unlinkFile s (pjoin root pick.path)
          else s) from rfl] at h2
    by_cases hg : (begins (pjoin root THEMES_DIR_RELATIVE) (pjoin root pick.path) &&
        existsFile s (pjoin root pick.path)) = true
    · rw [if_pos hg] at h2
      by_cases hp : p = pjoin root pick.path
      · subst hp
        exact (Bool.and_eq_true _ _ |>.mp hg).1
      · have he := exists_unlink_ne s (pjoin root pick.path) p hp
        rw [h1] at he
        exact ih _ p he h2
    · rw [if_neg hg] at h2
      exact ih s p h1 h2

/-- Witness for C9: a real theme file under the themes directory is removed
by the loop, and its path indeed starts with the themes directory path. -/
theorem removeThemes_prefix_amended_witness :
    existsFile
      { root := "/r".data, themesDir := [(("a.json".data), Json.obj [])],
        pkg := Json.obj [], backup := none, workbenchHtml := [],
        fontConfig := none, others := [] } ("/r/themes/a.json".data) = true ∧
    existsFile
      (removeThemesLoop ("/r".data)
        [⟨"i".data, "l".data, "vs".data, "Dark".data, "themes/a.json".data⟩]
        { root := "/r".data, themesDir := [(("a.json".data), Json.obj [])],
          pkg := Json.obj [], backup := none, workbenchHtml := [],
          fontConfig := none, others := [] }) ("/r/themes/a.json".data) = false ∧
    begins (pjoin ("/r".data) THEMES_DIR_RELATIVE) ("/r/themes/a.json".data) = true := by
  refine ⟨by decide, by decide, ?_⟩
  exact removeThemes_prefix_amended ("/r".data)
    [⟨"i".data, "l".data, "vs".data, "Dark".data, "themes/a.json".data⟩]
    { root := "/r".data, themesDir := [(("a.json".data), Json.obj [])],
      pkg := Json.obj [], backup := none, workbenchHtml := [],
      fontConfig := none, others := [] } ("/r/themes/a.json".data)
    (by decide) (by decide)

/-- A state whose `others` holds a sibling file `/ext/themesx.json`, outside
the themes directory `/ext/themes`, plus a theme entry whose stored relative
path resolves to that sibling. -/
def c9State : ExtState :=
  { root := "/ext".data,
    themesDir := [(("../themesx.json".data),
      Json.obj [(("name".data), Json.str ("Esc".data))])],
    pkg := Json.obj [], backup := none, workbenchHtml := [],
    fontConfig := none, others := [(("/ext/themesx.json".data), "data".data)] }

/-- C9 counterexample: with a stored file name `../themesx.json`, the
computed absolute path `/ext/themesx.json` starts with the themes directory
path `/ext/themes` yet lies outside the themes directory (it does not extend
`/ext/themes/`), and `handleRemoveThemes`, fully confirmed, deletes it. -/
theorem removeThemes_outside_counterexample :
    existsFile c9State ("/ext/themesx.json".data) = true ∧
    existsFile
      (handleRemoveThemes c9State (some [0]) (some ("Remove".data)))
      ("/ext/themesx.json".data) = false ∧
    begins ("/ext/themes/".data) ("/ext/themesx.json".data) = false := by
  refine ⟨by decide, ?_, by decide⟩
  decide

/-- The `contributes.themes` array of a manifest, when present. -/
def getContribThemes (pkg : Json) : Option (List Json) :=
  match pkg.getField ("contributes".data) with
  | some c =>
    match c.getField ("themes".data) with
    | some (Json.arr xs) => some xs
    | _ => none
  | none => none

theorem getField_of_not_truthy (c : Json) (h : truthy c = false) (k : Str) :
    c.getField k = none := by
  cases c <;> first | rfl | (simp [truthy] at h)

theorem syncPkgJson_eval_arr (entries : List ThemeEntry) (fs cfs : List (Str × Json))
    (xs : List Json)
    (hc : lookupField fs ("contributes".data) = some (Json.obj cfs))
    (hth : lookupField cfs ("themes".data) = some (Json.arr xs)) :
    syncPkgJson entries (Json.obj fs) =
      some (Json.obj (setAssoc fs ("contributes".data)
        (Json.obj (setAssoc cfs ("themes".data)
          (Json.arr (xs.filter keepEntry ++ entries.map themeEntryJson)))))) := by
  simp only [syncPkgJson, Json.getField, hc, hth, truthyOpt, truthy, jsSetField,
    Option.getD, bind, Option.bind, pure]
  simp

theorem syncPkgJson_eval_noarr (entries : List ThemeEntry) (fs cfs : List (Str × Json))
    (hc : lookupField fs ("contributes".data) = some (Json.obj cfs))
    (hth : ∀ xs, ¬ (lookupField cfs ("themes".data) = some (Json.arr xs))) :
    syncPkgJson entries (Json.obj fs) =
      some (Json.obj (setAssoc fs ("contributes".data)
        (Json.obj (setAssoc cfs ("themes".data)
          (Json.arr (entries.map themeEntryJson)))))) := by
  have key : ∀ (th : Option Json), th = lookupField cfs ("themes".data) →
      syncPkgJson entries (Json.obj fs) =
      some (Json.obj (setAssoc fs ("contributes".data)
        (Json.obj (setAssoc cfs ("themes".data)
          (Json.arr (entries.map themeEntryJson)))))) := by
    intro th hdef
    match th, hdef with
    | none, hdef =>
      simp only [syncPkgJson, Json.getField, hc, ← hdef, truthyOpt, truthy, jsSetField,
        Option.getD, bind, Option.bind, pure, lookup_setAssoc_self, setAssoc_setAssoc]
      simp [setAssoc_setAssoc]
    | some Json.null, hdef =>
      simp only [syncPkgJson, Json.getField, hc, ← hdef, truthyOpt, truthy, jsSetField,
        Option.getD, bind, Option.bind, pure, lookup_setAssoc_self, setAssoc_setAssoc]
      simp [setAssoc_setAssoc]
    | some (Json.bool b), hdef =>
      simp only [syncPkgJson, Json.getField, hc, ← hdef, truthyOpt, truthy, jsSetField,
        Option.getD, bind, Option.bind, pure, lookup_setAssoc_self, setAssoc_setAssoc]
      simp [setAssoc_setAssoc]
    | some (Json.num n), hdef =>
      simp only [syncPkgJson, Json.getField, hc, ← hdef, truthyOpt, truthy, jsSetField,
        Option.getD, bind, Option.bind, pure, lookup_setAssoc_self, setAssoc_setAssoc]
      simp [setAssoc_setAssoc]
    | some (Json.str t), hdef =>
      simp only [syncPkgJson, Json.getField, hc, ← hdef, truthyOpt, truthy, jsSetField,
        Option.getD, bind, Option.bind, pure, lookup_setAssoc_self, setAssoc_setAssoc]
      simp [setAssoc_setAssoc]
    | some (Json.obj gs), hdef =>
      simp only [syncPkgJson, Json.getField, hc, ← hdef, truthyOpt, truthy, jsSetField,
        Option.getD, bind, Option.bind, pure, lookup_setAssoc_self, setAssoc_setAssoc]
      simp [setAssoc_setAssoc]
    | some (Json.arr xs), hdef => exact absurd hdef.symm (hth xs)
  exact key _ rfl

theorem syncPkgJson_eval_notruthy (entries : List ThemeEntry) (fs : List (Str × Json))
    (hc : truthyOpt (lookupField fs ("contributes".data)) = false) :
    syncPkgJson entries (Json.obj fs) =
      some (Json.obj (setAssoc fs ("contributes".data)
        (Json.obj (setAssoc [] ("themes".data)
          (Json.arr (entries.map themeEntryJson)))))) := by
  simp only [syncPkgJson, Json.getField, hc, jsSetField,
    Option.getD, bind, Option.bind, pure, lookup_setAssoc_self, setAssoc_setAssoc]
  simp [setAssoc_setAssoc, lookup_setAssoc_self, lookupField]

theorem syncPkgJson_eval_throw_arr (entries : List ThemeEntry) (fs : List (Str × Json))
    (ys : List Json)
    (hc : lookupField fs ("contributes".data) = some (Json.arr ys)) :
    syncPkgJson entries (Json.obj fs) = none := by
  simp only [syncPkgJson, Json.getField, hc, truthyOpt, truthy, jsSetField,
    Option.getD, bind, Option.bind, pure]
  simp

theorem syncPkgJson_eval_throw_bool (entries : List ThemeEntry) (fs : List (Str × Json))
    (hc : lookupField fs ("contributes".data) = some (Json.bool true)) :
    syncPkgJson entries (Json.obj fs) = none := by
  simp only [syncPkgJson, Json.getField, hc, truthyOpt, truthy, jsSetField,
    Option.getD, bind, Option.bind, pure]
  simp

theorem syncPkgJson_eval_throw_num (entries : List ThemeEntry) (fs : List (Str × Json))
    (n : Int) (hn : ¬ (n = 0))
    (hc : lookupField fs ("contributes".data) = some (Json.num n)) :
    syncPkgJson entries (Json.obj fs) = none := by
  simp only [syncPkgJson, Json.getField, hc, truthyOpt, truthy, jsSetField,
    Option.getD, bind, Option.bind, pure]
  simp [hn]

theorem syncPkgJson_eval_throw_str (entries : List ThemeEntry) (fs : List (Str × Json))
    (t : Str) (ht : ¬ (t = []))
    (hc : lookupField fs ("contributes".data) = some (Json.str t)) :
    syncPkgJson entries (Json.obj fs) = none := by
  simp only [syncPkgJson, Json.getField, hc, truthyOpt, truthy, jsSetField,
    Option.getD, bind, Option.bind, pure]
  simp [ht]

theorem syncPkgJson_shape (entries : List ThemeEntry) (pkg pkg' : Json)
    (h : syncPkgJson entries pkg = some pkg') :
    ∃ fs cfs, pkg = Json.obj fs ∧
      pkg' = Json.obj (setAssoc fs ("contributes".data)
        (Json.obj (setAssoc cfs ("themes".data)
          (Json.arr (((getContribThemes pkg).getD []).filter keepEntry ++
            entries.map themeEntryJson))))) := by
  cases pkg with
  | null =>
    simp only [syncPkgJson, bind, Option.bind] at h
    cases h
  | bool b =>
    simp only [syncPkgJson, Json.getField, truthyOpt, jsSetField, bind, Option.bind,
      Bool.false_eq_true, if_false] at h
    cases h
  | num n =>
    simp only [syncPkgJson, Json.getField, truthyOpt, jsSetField, bind, Option.bind,
      Bool.false_eq_true, if_false] at h
    cases h
  | str s =>
    simp only [syncPkgJson, Json.getField, truthyOpt, jsSetField, bind, Option.bind,
      Bool.false_eq_true, if_false] at h
    cases h
  | arr xs =>
    simp only [syncPkgJson, Json.getField, truthyOpt, jsSetField, bind, Option.bind,
      Bool.false_eq_true, if_false] at h
    cases h
  | obj fs =>
    refine ⟨fs, ?_⟩
    cases hc0 : lookupField fs ("contributes".data) with
    | none =>
      have hev := syncPkgJson_eval_notruthy entries fs (by simp [truthyOpt, hc0])
      rw [hev] at h
      refine ⟨[], rfl, ?_⟩
      rw [← Option.some.inj h]
      simp [getContribThemes, Json.getField, hc0]
    | some c =>
      cases htc : truthy c with
      | false =>
        have hev := syncPkgJson_eval_notruthy entries fs
          (by simp [truthyOpt, hc0, htc])
        rw [hev] at h
        refine ⟨[], rfl, ?_⟩
        rw [← Option.some.inj h]
        have hgf := getField_of_not_truthy c htc ("themes".data)
        have hgc : getContribThemes (Json.obj fs) = none := by
          simp only [getContribThemes, Json.getField, hc0]
          simp only [Json.getField] at hgf
          rw [hgf]
        simp [hgc]
      | true =>
        cases c with
        | null => simp [truthy] at htc
        | bool b =>
          have hb : b = true := by simpa [truthy] using htc
          subst hb
          rw [syncPkgJson_eval_throw_bool entries fs hc0] at h
          cases h
        | num n =>
          have hn : ¬ (n = 0) := by simpa [truthy] using htc
          rw [syncPkgJson_eval_throw_num entries fs n hn hc0] at h
          cases h
        | str t =>
          have ht : ¬ (t = []) := by simpa [truthy] using htc
          rw [syncPkgJson_eval_throw_str entries fs t ht hc0] at h
          cases h
        | arr ys =>
          rw [syncPkgJson_eval_throw_arr entries fs ys hc0] at h
          cases h
        | obj cfs =>
          cases hth : lookupField cfs ("themes".data) with
          | none =>
            have hev := syncPkgJson_eval_noarr entries fs cfs hc0
              (by intro xs hx; rw [hth] at hx; cases hx)
            rw [hev] at h
            refine ⟨cfs, rfl, ?_⟩
            rw [← Option.some.inj h]
            simp [getContribThemes, Json.getField, hc0, hth]
          | some j =>
            cases j with
            | arr xs =>
              have hev := syncPkgJson_eval_arr entries fs cfs xs hc0 hth
              rw [hev] at h
              refine ⟨cfs, rfl, ?_⟩
              rw [← Option.some.inj h]
              simp [getContribThemes, Json.getField, hc0, hth]
            | null =>
              have hev := syncPkgJson_eval_noarr entries fs cfs hc0
                (by intro xs hx; rw [hth] at hx; simp at hx)
              rw [hev] at h
              refine ⟨cfs, rfl, ?_⟩
              rw [← Option.some.inj h]
              simp [getContribThemes, Json.getField, hc0, hth]
            | bool b =>
              have hev := syncPkgJson_eval_noarr entries fs cfs hc0
                (by intro xs hx; rw [hth] at hx; simp at hx)
              rw [hev] at h
              refine ⟨cfs, rfl, ?_⟩
              rw [← Option.some.inj h]
              simp [getContribThemes, Json.getField, hc0, hth]
            | num n =>
              have hev := syncPkgJson_eval_noarr entries fs cfs hc0
                (by intro xs hx; rw [hth] at hx; simp at hx)
              rw [hev] at h
              refine ⟨cfs, rfl, ?_⟩
              rw [← Option.some.inj h]
              simp [getContribThemes, Json.getField, hc0, hth]
            | str t =>
              have hev := syncPkgJson_eval_noarr entries fs cfs hc0
                (by intro xs hx; rw [hth] at hx; simp at hx)
              rw [hev] at h
              refine ⟨cfs, rfl, ?_⟩
              rw [← Option.some.inj h]
              simp [getContribThemes, Json.getField, hc0, hth]
            | obj gs =>
              have hev := syncPkgJson_eval_noarr entries fs cfs hc0
                (by intro xs hx; rw [hth] at hx; simp at hx)
              rw [hev] at h
              refine ⟨cfs, rfl, ?_⟩
              rw [← Option.some.inj h]
              simp [getContribThemes, Json.getField, hc0, hth]

/-- C10 (amended): when the rewrite succeeds, `syncPackageJsonThemes` keeps,
in their original order, exactly the `contributes.themes` entries that are
truthy and whose `_sh1ffyTag` is not `sh1ffy-managed` (falsy entries such as
`null` are dropped along with the tagged ones), appends the entries
regenerated from the themes directory, and running it a second time on the
result produces the same package.json content. -/
theorem syncPackageJsonThemes_amended :
    ∀ (entries : List ThemeEntry) (pkg pkg' : Json),
      syncPkgJson entries pkg = some pkg' →
      getContribThemes pkg' =
        some (((getContribThemes pkg).getD []).filter keepEntry ++
          entries.map themeEntryJson) ∧
      syncPkgJson entries pkg' = some pkg' := by
  intro entries pkg pkg' h
  obtain ⟨fs, cfs, rfl, rfl⟩ := syncPkgJson_shape entries pkg pkg' h
  have hfix : (((getContribThemes (Json.obj fs)).getD []).filter keepEntry ++
      entries.map themeEntryJson).filter keepEntry =
      ((getContribThemes (Json.obj fs)).getD []).filter keepEntry := by
    rw [List.filter_append]
    have h1 : (entries.map themeEntryJson).filter keepEntry = [] :=
      List.filter_eq_nil_iff.mpr (by
        intro a ha
        obtain ⟨t, _, rfl⟩ := List.mem_map.mp ha
        simp [keepEntry_themeEntryJson])
    have h2 : (((getContribThemes (Json.obj fs)).getD []).filter
        keepEntry).filter keepEntry =
        ((getContribThemes (Json.obj fs)).getD []).filter keepEntry :=
      List.filter_eq_self.mpr (fun a ha => (List.mem_filter.mp ha).2)
    rw [h1, h2, List.append_nil]
  constructor
  · simp [getContribThemes, Json.getField, lookup_setAssoc_self]
  · have hev := syncPkgJson_eval_arr entries
      (setAssoc fs ("contributes".data)
        (Json.obj (setAssoc cfs ("themes".data)
          (Json.arr (((getContribThemes (Json.obj fs)).getD []).filter keepEntry ++
            entries.map themeEntryJson)))))
      (setAssoc cfs ("themes".data)
        (Json.arr (((getContribThemes (Json.obj fs)).getD []).filter keepEntry ++
          entries.map themeEntryJson)))
      (((getContribThemes (Json.obj fs)).getD []).filter keepEntry ++
        entries.map themeEntryJson)
      (lookup_setAssoc_self _ _ _) (lookup_setAssoc_self _ _ _)
    rw [hev, hfix, setAssoc_setAssoc, setAssoc_setAssoc]

/-- The manifest of the C10 witness before synchronisation: one foreign
entry and one previously generated entry. -/
def w10Pkg : Json :=
  Json.obj [(("contributes".data),
    Json.obj [(("themes".data),
      Json.arr [Json.obj [(("label".data), Json.str ("K".data))],
        Json.obj [(("_sh1ffyTag".data), Json.str SH1FFY_THEME_TAG)]])])]

/-- One theme on disk for the C10 witness. -/
def w10Entry : ThemeEntry :=
  ⟨"sh1ffy.a".data, "a".data, "vs".data, "Light".data, "themes/a.json".data⟩

/-- The manifest after synchronisation in the C10 witness. -/
def w10Pkg' : Json :=
  Json.obj [(("contributes".data),
    Json.obj [(("themes".data),
      Json.arr [Json.obj [(("label".data), Json.str ("K".data))],
        themeEntryJson w10Entry])])]

/-- Witness for C10: on a manifest holding one foreign and one managed
entry, the foreign entry is kept, the managed one is regenerated, and the
rewrite is idempotent. -/
theorem syncPackageJsonThemes_amended_witness :
    getContribThemes w10Pkg' =
      some (((getContribThemes w10Pkg).getD []).filter keepEntry ++
        [w10Entry].map themeEntryJson) ∧
    syncPkgJson [w10Entry] w10Pkg' = some w10Pkg' :=
  syncPackageJsonThemes_amended [w10Entry] w10Pkg w10Pkg' rfl

/-- The manifest of the C10 counterexample: `contributes.themes` holds a
`null` entry (no `_sh1ffyTag` at all) next to an ordinary foreign entry. -/
def c10Pkg : Json :=
  Json.obj [(("contributes".data),
    Json.obj [(("themes".data),
      Json.arr [Json.null,
        Json.obj [(("label".data), Json.str ("K".data))]])])]

/-- C10 counterexample: the `null` entry's `_sh1ffyTag` is not
`sh1ffy-managed`, yet synchronising with an unchanged (empty) themes
directory drops it — the rewritten `contributes.themes` keeps only the
other entry — refuting `preserves ... every contributes.themes entry whose
_sh1ffyTag field is not "sh1ffy-managed"`. -/
theorem sync_dropsEntry_counterexample :
    isStrVal (Json.null.getField ("_sh1ffyTag".data)) SH1FFY_THEME_TAG = false ∧
    syncPkgJson [] c10Pkg =
      some (Json.obj [(("contributes".data),
        Json.obj [(("themes".data),
          Json.arr [Json.obj [(("label".data), Json.str ("K".data))]])])]) ∧
    ¬ (Json.null ∈ [Json.obj [(("label".data), Json.str ("K".data))]]) := by
  refine ⟨rfl, rfl, ?_⟩
  intro hmem
  rw [List.mem_singleton] at hmem
  exact Json.noConfusion hmem

theorem readThemeEntry_path {n : Str} {c : Json} {e : ThemeEntry}
    (h : readThemeEntry n c = some e) : e.path = pjoin THEMES_DIR_RELATIVE n := by
  cases c with
  | null => simp [readThemeEntry] at h
  | bool b =>
    simp only [readThemeEntry] at h
    cases hcl : classifyType ((Json.bool b).getField ("type".data)) with
    | none => simp only [hcl] at h; cases h
    | some p => simp only [hcl] at h; obtain rfl := Option.some.inj h; rfl
  | num m =>
    simp only [readThemeEntry] at h
    cases hcl : classifyType ((Json.num m).getField ("type".data)) with
    | none => simp only [hcl] at h; cases h
    | some p => simp only [hcl] at h; obtain rfl := Option.some.inj h; rfl
  | str t =>
    simp only [readThemeEntry] at h
    cases hcl : classifyType ((Json.str t).getField ("type".data)) with
    | none => simp only [hcl] at h; cases h
    | some p => simp only [hcl] at h; obtain rfl := Option.some.inj h; rfl
  | arr xs =>
    simp only [readThemeEntry] at h
    cases hcl : classifyType ((Json.arr xs).getField ("type".data)) with
    | none => simp only [hcl] at h; cases h
    | some p => simp only [hcl] at h; obtain rfl := Option.some.inj h; rfl
  | obj gs =>
    simp only [readThemeEntry] at h
    cases hcl : classifyType ((Json.obj gs).getField ("type".data)) with
    | none => simp only [hcl] at h; cases h
    | some p => simp only [hcl] at h; obtain rfl := Option.some.inj h; rfl

theorem abs_path_eq {root n : Str} (hroot : normalRootB root = true)
    (hn : wfSeg n = true) :
    pjoin root (pjoin THEMES_DIR_RELATIVE n) =
      (root ++ '/' :: THEMES_DIR_RELATIVE ++ ['/']) ++ n := by
  have h1 : pjoin THEMES_DIR_RELATIVE n = THEMES_DIR_RELATIVE ++ '/' :: n := by
    apply pjoin_rel
    · decide
    · rw [splitSegs_noSlash (wfSeg_props hn).2.1]
      simp [hn]
    · decide
    · exact (wfSeg_props hn).1
  rw [h1]
  have h2 : pjoin root (THEMES_DIR_RELATIVE ++ '/' :: n) =
      root ++ '/' :: (THEMES_DIR_RELATIVE ++ '/' :: n) := by
    apply pjoin_abs _ hroot
    · rw [splitSegs_append_slash, List.all_append,
        splitSegs_noSlash (wfSeg_props hn).2.1]
      rw [show splitSegs THEMES_DIR_RELATIVE = [THEMES_DIR_RELATIVE] from by decide]
      simp [hn]
      decide
    · simp [THEMES_DIR_RELATIVE]
  rw [h2]
  simp

theorem removeThemesLoop_frame :
    ∀ (picks : List ThemeEntry) (root : Str) (st : ExtState),
      (∀ p ∈ picks, ∃ n, wfSeg n = true ∧ p.path = pjoin THEMES_DIR_RELATIVE n) →
      normalRootB root = true →
      st.others.all
        (fun f => !(begins (root ++ '/' :: THEMES_DIR_RELATIVE ++ ['/']) f.1)) = true →
      (removeThemesLoop root picks st).others = st.others ∧
      (removeThemesLoop root picks st).root = st.root := by
  intro picks
  induction picks with
  | nil => intro root st _ _ _; exact ⟨rfl, rfl⟩
  | cons pick rest ih =>
    intro root st hp hroot hall
    obtain ⟨n, hn, hpath⟩ := hp pick (by simp)
    rw [show removeThemesLoop root (pick :: rest) st =
        removeThemesLoop root rest
          (if begins (pjoin root THEMES_DIR_RELATIVE) (pjoin root pick.path) &&
              existsFile st (pjoin root pick.path) then
            unlinkFile st (pjoin root pick.path)
          else st) from rfl]
    by_cases hg : (begins (pjoin root THEMES_DIR_RELATIVE) (pjoin root pick.path) &&
        existsFile st (pjoin root pick.path)) = true
    · rw [if_pos hg]
      have habs : pjoin root pick.path =
          (root ++ '/' :: THEMES_DIR_RELATIVE ++ ['/']) ++ n := by
        rw [hpath]
        exact abs_path_eq hroot hn
      have hunl : (unlinkFile st (pjoin root pick.path)).others = st.others := by
        have hform : (unlinkFile st (pjoin root pick.path)).others =
            st.others.filter (fun f => ¬ (f.1 = pjoin root pick.path)) := rfl
        rw [hform]
        apply List.filter_eq_self.mpr
        intro f hf
        have hfp := List.all_eq_true.mp hall f hf
        simp only [Bool.not_eq_true'] at hfp
        simp only [decide_eq_true_eq]
        intro heq
        rw [heq, habs, begins_append_self] at hfp
        cases hfp
      have hrt : (unlinkFile st (pjoin root pick.path)).root = st.root := rfl
      have hall' : (unlinkFile st (pjoin root pick.path)).others.all
          (fun f => !(begins (root ++ '/' :: THEMES_DIR_RELATIVE ++ ['/']) f.1)) =
          true := by rw [hunl]; exact hall
      have hres := ih root (unlinkFile st (pjoin root pick.path))
        (fun p hp' => hp p (by simp [hp'])) hroot hall'
      exact ⟨hres.1.trans hunl, hres.2.trans hrt⟩
    · rw [if_neg hg]
      exact ih root st (fun p hp' => hp p (by simp [hp'])) hroot hall

theorem sync_frame (s : ExtState) :
    (syncPackageJsonThemes s).others = s.others ∧
    (syncPackageJsonThemes s).root = s.root := by
  unfold syncPackageJsonThemes
  cases syncPkgJson (readImportedThemesFromDisk s.themesDir) s.pkg with
  | none => exact ⟨rfl, rfl⟩
  | some p => exact ⟨rfl, rfl⟩

theorem pick_path_shape {dir : List (Str × Json)}
    (hwf : dir.all (fun f => wfSeg f.1) = true)
    {e : ThemeEntry} (he : e ∈ readImportedThemesFromDisk dir) :
    ∃ n, wfSeg n = true ∧ e.path = pjoin THEMES_DIR_RELATIVE n := by
  unfold readImportedThemesFromDisk at he
  obtain ⟨f, hf, hread⟩ := List.mem_filterMap.mp he
  have hfdir : f ∈ dir := List.mem_of_mem_filter hf
  have hwff := List.all_eq_true.mp hwf f hfdir
  exact ⟨f.1, by simpa using hwff, readThemeEntry_path hread⟩

/-- Well-formedness of a modelled state: the extension root is a normalized
absolute path, the themes directory holds plain file names (as `readdirSync`
reports them), and no unrelated file lives inside the themes directory. -/
def wfState (s : ExtState) : Bool :=
  normalRootB s.root &&
  s.themesDir.all (fun f => wfSeg f.1) &&
  s.others.all
    (fun f => !(begins (s.root ++ '/' :: THEMES_DIR_RELATIVE ++ ['/']) f.1))

/-- C7 (amended): beyond workbench.html and package.json the program also
writes the backup `package.json.sh1ffy.bak` and creates and deletes theme
files inside its own `themes` directory; but on a well-formed state no
handler creates, modifies, or deletes any file outside those, and the
extension root never changes. -/
theorem frame_amended :
    ∀ (a : SfAction) (s : ExtState), wfState s = true →
      (step a s).others = s.others ∧ (step a s).root = s.root := by
  intro a s hwf
  have hroot : normalRootB s.root = true := by
    simp only [wfState, Bool.and_eq_true] at hwf
    exact hwf.1.1
  have hdir : s.themesDir.all (fun f => wfSeg f.1) = true := by
    simp only [wfState, Bool.and_eq_true] at hwf
    exact hwf.1.2
  have hoth : s.others.all
      (fun f => !(begins (s.root ++ '/' :: THEMES_DIR_RELATIVE ++ ['/']) f.1)) =
      true := by
    simp only [wfState, Bool.and_eq_true] at hwf
    exact hwf.2
  cases a with
  | importThemes files =>
    show (handleImportThemes s files).others = s.others ∧
      (handleImportThemes s files).root = s.root
    by_cases hfe : files.isEmpty
    · simp [handleImportThemes, hfe]
    · constructor
      · show (handleImportThemes s files).others = s.others
        unfold handleImportThemes
        rw [if_neg hfe]
        exact (sync_frame _).1
      · show (handleImportThemes s files).root = s.root
        unfold handleImportThemes
        rw [if_neg hfe]
        exact (sync_frame _).2
  | removeThemes sel conf =>
    show (handleRemoveThemes s sel conf).others = s.others ∧
      (handleRemoveThemes s sel conf).root = s.root
    by_cases h1 : (readImportedThemesFromDisk s.themesDir).isEmpty
    · simp [handleRemoveThemes, h1]
    · cases sel with
      | none => simp [handleRemoveThemes, h1]
      | some idxs =>
        by_cases h2 : (idxs.filterMap
            (fun i => (readImportedThemesFromDisk s.themesDir)[i]?)).isEmpty
        · simp [handleRemoveThemes, h1, h2]
        · by_cases h3 : conf = some ("Remove".data)
          · have hloop := removeThemesLoop_frame
              (idxs.filterMap (fun i => (readImportedThemesFromDisk s.themesDir)[i]?))
              s.root s
              (fun p hp' => by
                obtain ⟨i, _, hgi⟩ := List.mem_filterMap.mp hp'
                exact pick_path_shape hdir (List.getElem?_mem hgi))
              hroot hoth
            constructor
            · show (handleRemoveThemes s (some idxs) conf).others = s.others
              simp only [handleRemoveThemes, if_neg h1, if_neg h2, h3]
              exact (sync_frame _).1.trans hloop.1
            · show (handleRemoveThemes s (some idxs) conf).root = s.root
              simp only [handleRemoveThemes, if_neg h1, if_neg h2, h3]
              exact (sync_frame _).2.trans hloop.2
          · simp [handleRemoveThemes, h1, h2, h3]
  | listThemes => exact ⟨rfl, rfl⟩
  | repairContributions => exact ⟨(sync_frame s).1, (sync_frame s).2⟩
  | restorePackageJsonBackup conf =>
    show (handleRestorePackageJsonBackup s conf).others = s.others ∧
      (handleRestorePackageJsonBackup s conf).root = s.root
    unfold handleRestorePackageJsonBackup
    cases s.backup with
    | none => exact ⟨rfl, rfl⟩
    | some b =>
      by_cases hc : conf = some ("Restore".data) <;> simp [hc]
  | setFont input =>
    show (handleSetCustomFont s input).others = s.others ∧
      (handleSetCustomFont s input).root = s.root
    unfold handleSetCustomFont
    cases input with
    | none => exact ⟨rfl, rfl⟩
    | some v =>
      by_cases hv : jsTrim v = [] <;> simp [hv]
  | enableFont =>
    show (handleEnableCustomFontState s).others = s.others ∧
      (handleEnableCustomFontState s).root = s.root
    unfold handleEnableCustomFontState
    cases s.fontConfig with
    | none => exact ⟨rfl, rfl⟩
    | some font =>
      by_cases hc : containsSub STYLE_TAG_OPEN s.workbenchHtml <;> simp [hc]
  | disableFont =>
    show (handleDisableCustomFont s).others = s.others ∧
      (handleDisableCustomFont s).root = s.root
    unfold handleDisableCustomFont
    by_cases hc : containsSub STYLE_TAG_OPEN s.workbenchHtml <;> simp [hc]
  | reloadFontConfiguration =>
    show (handleReloadFontConfiguration s).others = s.others ∧
      (handleReloadFontConfiguration s).root = s.root
    unfold handleReloadFontConfiguration
    cases s.fontConfig with
    | none => exact ⟨rfl, rfl⟩
    | some font => exact ⟨rfl, rfl⟩
  | resetToDefaults conf =>
    show (handleResetToDefaults s conf).others = s.others ∧
      (handleResetToDefaults s conf).root = s.root
    unfold handleResetToDefaults
    by_cases hc : conf = some ("Reset".data)
    · subst hc
      by_cases hw : containsSub STYLE_TAG_OPEN s.workbenchHtml <;> simp [hw]
    · simp [hc]

/-- A well-formed concrete state with one theme file and one unrelated
file, for the C7 witness. -/
def w7State : ExtState :=
  { root := "/ext".data,
    themesDir := [(("a.json".data),
      Json.obj [(("name".data), Json.str ("A".data))])],
    pkg := Json.obj [], backup := none, workbenchHtml := [],
    fontConfig := none,
    others := [(("/ext/other.txt".data), "keep".data)] }

/-- Witness for C7: a fully confirmed theme removal on a well-formed state
leaves the unrelated files and the extension root unchanged. -/
theorem frame_amended_witness :
    wfState w7State = true ∧
    (step (SfAction.removeThemes (some [0]) (some ("Remove".data))) w7State).others =
      w7State.others ∧
    (step (SfAction.removeThemes (some [0]) (some ("Remove".data))) w7State).root =
      w7State.root :=
  ⟨by decide,
   (frame_amended (SfAction.removeThemes (some [0]) (some ("Remove".data)))
     w7State (by decide)).1,
   (frame_amended (SfAction.removeThemes (some [0]) (some ("Remove".data)))
     w7State (by decide)).2⟩

/-- The starting state of the C7 counterexample: no theme files, no backup. -/
def c7State : ExtState :=
  { root := "/ext".data, themesDir := [], pkg := Json.obj [], backup := none,
    workbenchHtml := [], fontConfig := none, others := [] }

/-- The file selected in the import dialog for the C7 counterexample. -/
def c7File : ImportFile := ⟨"Dark.json".data, some (Json.obj []), true⟩

/-- C7 counterexample: importing a theme creates a file in the themes
directory and the backup `package.json.sh1ffy.bak` — two files that are
neither workbench.html nor package.json — refuting `the program mutates
exactly two files ... no operation creates ... any other file`. -/
theorem frame_counterexample :
    lookupField c7State.themesDir ("Dark.json".data) = none ∧
    (lookupField (step (SfAction.importThemes [c7File]) c7State).themesDir
      ("Dark.json".data)).isSome = true ∧
    c7State.backup = none ∧
    (step (SfAction.importThemes [c7File]) c7State).backup.isSome = true := by
  exact ⟨rfl, by decide, rfl, by decide⟩

theorem syncPkgJson_themes_out (entries : List ThemeEntry) (pkg pkg' : Json)
    (h : syncPkgJson entries pkg = some pkg') :
    getContribThemes pkg' =
      some (((getContribThemes pkg).getD []).filter keepEntry ++
        entries.map themeEntryJson) := by
  obtain ⟨fs, cfs, rfl, rfl⟩ := syncPkgJson_shape entries pkg pkg' h
  simp [getContribThemes, Json.getField, lookup_setAssoc_self]

theorem handleImportThemes_single (s : ExtState) (f : ImportFile) (target : Str)
    (norm : Json)
    (h : importOne (readImportedThemesFromDisk s.themesDir) f = some (target, norm)) :
    handleImportThemes s [f] =
      syncPackageJsonThemes
        { s with themesDir := writeThemeFile s.themesDir target norm } := by
  unfold handleImportThemes
  rw [if_neg (by simp)]
  simp only [List.foldl_cons, List.foldl_nil, h]

theorem mem_readImported {dir : List (Str × Json)} {n : Str} {c : Json}
    {e : ThemeEntry} (hmem : (n, c) ∈ dir)
    (hjson : begins (".json".data.reverse) n.reverse = true)
    (hread : readThemeEntry n c = some e) :
    e ∈ readImportedThemesFromDisk dir := by
  unfold readImportedThemesFromDisk
  apply List.mem_filterMap.mpr
  refine ⟨(n, c), ?_, hread⟩
  apply List.mem_filter.mpr
  exact ⟨hmem, hjson⟩

/-- C4 (amended): for a file the import loop accepts (`importOne` returns a
target name and normalized content), the normalized JSON is written into the
themes directory under the target name (a `.jsonc` extension renamed to
`.json`), and — provided the target name ends in the case-sensitive
extension `.json` the read-back scan looks for, the written content reads
back as a theme entry, and the manifest rewrite does not throw —
package.json is rewritten so that `contributes.themes` contains a
`sh1ffy-managed` entry whose path refers to that file. -/
theorem importTheme_amended :
    ∀ (s : ExtState) (f : ImportFile) (target : Str) (norm : Json)
      (e : ThemeEntry) (pkg' : Json),
      importOne (readImportedThemesFromDisk s.themesDir) f = some (target, norm) →
      wfSeg target = true →
      begins (".json".data.reverse) target.reverse = true →
      readThemeEntry target norm = some e →
      syncPkgJson (readImportedThemesFromDisk
        (writeThemeFile s.themesDir target norm)) s.pkg = some pkg' →
      lookupField (step (SfAction.importThemes [f]) s).themesDir target =
        some norm ∧
      (step (SfAction.importThemes [f]) s).pkg = pkg' ∧
      ∃ entry ∈ (getContribThemes pkg').getD [],
        isStrVal (entry.getField ("path".data)) ("./themes/".data ++ target) = true ∧
        isStrVal (entry.getField ("_sh1ffyTag".data)) SH1FFY_THEME_TAG = true := by
  intro s f target norm e pkg' himp hwft hjson hread hsync
  have hstep : step (SfAction.importThemes [f]) s =
      writePackageJson
        { s with themesDir := writeThemeFile s.themesDir target norm } pkg' := by
    show handleImportThemes s [f] = _
    rw [handleImportThemes_single s f target norm himp]
    unfold syncPackageJsonThemes
    have hsync' : syncPkgJson
        (readImportedThemesFromDisk
          (({ s with themesDir := writeThemeFile s.themesDir target norm } :
            ExtState).themesDir))
        (({ s with themesDir := writeThemeFile s.themesDir target norm } :
          ExtState).pkg) = some pkg' := hsync
    rw [hsync']
  rw [hstep]
  refine ⟨?_, rfl, ?_⟩
  · exact lookup_writeThemeFile s.themesDir target norm
  · have hout := syncPkgJson_themes_out _ _ _ hsync
    rw [hout]
    have hmem : e ∈ readImportedThemesFromDisk
        (writeThemeFile s.themesDir target norm) :=
      mem_readImported (mem_writeThemeFile s.themesDir target norm) hjson hread
    refine ⟨themeEntryJson e, ?_, ?_, ?_⟩
    · simp only [Option.getD_some]
      apply List.mem_append_right
      exact List.mem_map.mpr ⟨e, hmem, rfl⟩
    · have hpath : e.path = THEMES_DIR_RELATIVE ++ '/' :: target := by
        rw [readThemeEntry_path hread]
        apply pjoin_rel
        · decide
        · rw [splitSegs_noSlash (wfSeg_props hwft).2.1]
          simp [hwft]
        · decide
        · exact (wfSeg_props hwft).1
      simp only [themeEntryJson, Json.getField, lookupField]
      rw [hpath]
      simp [isStrVal, THEMES_DIR_RELATIVE]
    · simp [themeEntryJson, Json.getField, lookupField, isStrVal]

/-- Starting state for the C4 witness: empty themes directory, empty
manifest. -/
def w4State : ExtState :=
  { root := "/ext".data, themesDir := [], pkg := Json.obj [], backup := none,
    workbenchHtml := [], fontConfig := none, others := [] }

/-- The imported file of the C4 witness: a `.jsonc` theme parsing to `{}`. -/
def w4File : ImportFile := ⟨"Dark.jsonc".data, some (Json.obj []), true⟩

/-- The normalized content `handleImportThemes` writes for `w4File`. -/
def w4Norm : Json :=
  Json.obj [(("name".data), Json.str ("sh1ffy • Dark".data)),
            (("type".data), Json.str ("dark".data))]

/-- The theme entry read back from the written file in the C4 witness. -/
def w4Entry : ThemeEntry :=
  ⟨"sh1ffy.sh1ffy-dark".data, "sh1ffy • Dark".data, "vs-dark".data,
   "Dark".data, "themes/Dark.json".data⟩

/-- The manifest after the C4 witness import. -/
def w4Pkg' : Json :=
  Json.obj [(("contributes".data),
    Json.obj [(("themes".data), Json.arr [themeEntryJson w4Entry])])]

/-- Witness for C4: importing `Dark.jsonc` writes `themes/Dark.json` and
registers a managed `contributes.themes` entry pointing at it. -/
theorem importTheme_amended_witness :
    lookupField (step (SfAction.importThemes [w4File]) w4State).themesDir
      ("Dark.json".data) = some w4Norm ∧
    (step (SfAction.importThemes [w4File]) w4State).pkg = w4Pkg' ∧
    ∃ entry ∈ (getContribThemes w4Pkg').getD [],
      isStrVal (entry.getField ("path".data))
        ("./themes/".data ++ "Dark.json".data) = true ∧
      isStrVal (entry.getField ("_sh1ffyTag".data)) SH1FFY_THEME_TAG = true :=
  importTheme_amended w4State w4File ("Dark.json".data) w4Norm w4Entry w4Pkg'
    rfl (by decide) (by decide) rfl rfl

/-- Starting state for the C4 counterexample. -/
def c4State : ExtState :=
  { root := "/ext".data, themesDir := [], pkg := Json.obj [], backup := none,
    workbenchHtml := [], fontConfig := none, others := [] }

/-- The imported file of the C4 counterexample: extension `.JSON` in upper
case, so the duplicate-safe rename keeps the name `Dark.JSON`. -/
def c4File : ImportFile := ⟨"Dark.JSON".data, some (Json.obj []), true⟩

/-- The normalized content written for `c4File`. -/
def c4Norm : Json :=
  Json.obj [(("name".data), Json.str ("sh1ffy • Dark".data)),
            (("type".data), Json.str ("dark".data))]

/-- C4 counterexample: `Dark.JSON` is imported successfully and its
normalized content is written into the themes directory, but the rewritten
manifest's `contributes.themes` stays empty — the case-sensitive `.json`
scan of the read-back never lists the file, so no entry refers to it —
refuting the unconditional claim. -/
theorem importTheme_counterexample :
    importOne (readImportedThemesFromDisk c4State.themesDir) c4File =
      some ("Dark.JSON".data, c4Norm) ∧
    lookupField (step (SfAction.importThemes [c4File]) c4State).themesDir
      ("Dark.JSON".data) = some c4Norm ∧
    getContribThemes (step (SfAction.importThemes [c4File]) c4State).pkg =
      some [] := by
  exact ⟨rfl, rfl, rfl⟩
